import Mathlib

/-!
Verification of the core of `data/VideoFolder.py`: a frame-level video
dataset exposing a flat frame-index address space over a directory of
videos.  We shallowly embed the components named by the specification:

* the video index built by `VideoFolder._make_data_set`,
* the locate step of `VideoFolder.__getitem__` (Python `bisect`),
* the decode-cursor cache `VideoFolder._get_frame`,
* the `BatchSampler` index generator,
* the `VideoCollate.__call__` collation step.

Python machine integers are arbitrary precision, so indices are embedded
as `Nat`/`Int`; fallible operations (list indexing, `%` by zero, probe
failures) return `Option`/`Except`.
-/

namespace VideoFolder

/-- One entry of `self.videos` built by `_make_data_set`: the Python value
`((last, first), (path, target))`, i.e. the inclusive flat-index range
`[first, last]` of the video, its path relative to the root, and its
numeric class label. -/
structure VideoRecord where
  last : Nat
  first : Nat
  path : String
  target : Nat
deriving DecidableEq

instance : Inhabited VideoRecord := ⟨⟨0, 0, "", 0⟩⟩

/-- `coversRange videos start stop` states that the records' inclusive
ranges `[first, last]` tile the interval `[start, stop)` contiguously,
in order, each range nonempty.  This is the data-model invariant of the
specification ("ranges partition `[0, totalFrames)`"). -/
def coversRange : List VideoRecord → Nat → Nat → Bool
  | [], start, stop => start == stop
  | r :: rest, start, stop =>
      (r.first == start) && (start ≤ r.last) && coversRange rest (r.last + 1) stop

/-- Index `i` of `videos`, with the `Inhabited` default out of range
(the form in which the binary search reads the list). -/
def lastAt (videos : List VideoRecord) (i : Nat) : Nat :=
  (videos.getD i default).last

def firstAt (videos : List VideoRecord) (i : Nat) : Nat :=
  (videos.getD i default).first

/-- The loop of Python's `bisect.bisect_right(a, x, lo, hi)` as called on
line 96: `bisect(self.videos, ((frame_idx,),))`.  Python compares the
probe tuple `((frame_idx,),)` with an entry `((last, first), (path,
target))` lexicographically; since a strict prefix is smaller, the probe
is `<` the entry exactly when `frame_idx ≤ last`.  The `while lo < hi`
loop runs at most `hi - lo` times, which we pass as explicit fuel so the
function stays structurally recursive. -/
def bisectLoop (videos : List VideoRecord) (frameIdx : Nat) : Nat → Nat → Nat → Nat
  | 0, lo, _ => lo
  | fuel + 1, lo, hi =>
      if lo < hi then
        let mid := (lo + hi) / 2
        if frameIdx ≤ lastAt videos mid then
          bisectLoop videos frameIdx fuel lo mid
        else
          bisectLoop videos frameIdx fuel (mid + 1) hi
      else lo

/-- Python `bisect(self.videos, ((frame_idx,),))` with the default
bounds `lo = 0`, `hi = len(a)`. -/
def bisect (videos : List VideoRecord) (frameIdx : Nat) : Nat :=
  bisectLoop videos frameIdx videos.length 0 videos.length

/-- The locate step of `__getitem__` (lines 96–98): the bisect result is
used to index `self.videos`; Python raises `IndexError` when it is out of
range, embedded as `none`.  Returns `(video_idx, frame_idx - first)`. -/
def locate (videos : List VideoRecord) (frameIdx : Nat) : Option (Nat × Nat) :=
  match videos[bisect videos frameIdx]? with
  | none => none
  | some r => some (bisect videos frameIdx, frameIdx - r.first)

/-- The exhaustive linear scan the specification compares `locate`
against: find the first record whose inclusive range contains
`frameIdx` and return its index together with `frameIdx - first`. -/
def linearLocate (videos : List VideoRecord) (frameIdx : Nat) : Option (Nat × Nat) :=
  match videos.findIdx? (fun r => r.first ≤ frameIdx && frameIdx ≤ r.last) with
  | some i => some (i, frameIdx - (videos.getD i default).first)
  | none => none

/-! ### Facts about the partition predicate -/

theorem coversRange_cons {r : VideoRecord} {rest : List VideoRecord} {start stop : Nat}
    (h : coversRange (r :: rest) start stop = true) :
    r.first = start ∧ start ≤ r.last ∧ coversRange rest (r.last + 1) stop = true := by
  simp only [coversRange, Bool.and_eq_true, beq_iff_eq, decide_eq_true_eq] at h
  exact ⟨h.1.1, h.1.2, h.2⟩

theorem firstAt_cons_zero (r : VideoRecord) (rest : List VideoRecord) :
    firstAt (r :: rest) 0 = r.first := rfl

theorem lastAt_cons_zero (r : VideoRecord) (rest : List VideoRecord) :
    lastAt (r :: rest) 0 = r.last := rfl

theorem firstAt_cons_succ (r : VideoRecord) (rest : List VideoRecord) (j : Nat) :
    firstAt (r :: rest) (j + 1) = firstAt rest j := rfl

theorem lastAt_cons_succ (r : VideoRecord) (rest : List VideoRecord) (j : Nat) :
    lastAt (r :: rest) (j + 1) = lastAt rest j := rfl

/-- A covering list can only exist when `start ≤ stop`. -/
theorem coversRange_start_le :
    ∀ (l : List VideoRecord) (a b : Nat), coversRange l a b = true → a ≤ b := by
  intro l
  induction l with
  | nil => intro a b hl; simp [coversRange] at hl; omega
  | cons x xs ihl =>
    intro a b hl
    obtain ⟨_, hx, hxs⟩ := coversRange_cons hl
    have := ihl _ _ hxs
    omega

/-- Every record of a covering list has a nonempty range inside
`[start, stop)`. -/
theorem coversRange_bounds :
    ∀ (videos : List VideoRecord) (start stop : Nat),
      coversRange videos start stop = true →
      ∀ i, i < videos.length →
        start ≤ firstAt videos i ∧ firstAt videos i ≤ lastAt videos i ∧
          lastAt videos i < stop := by
  intro videos
  induction videos with
  | nil => intro start stop _ i hi; simp at hi
  | cons r rest ih =>
    intro start stop h i hi
    obtain ⟨hfirst, hle, hrest⟩ := coversRange_cons h
    cases i with
    | zero =>
      have hstop : r.last < stop := by
        have := coversRange_start_le _ _ _ hrest
        omega
      rw [firstAt_cons_zero, lastAt_cons_zero]
      omega
    | succ j =>
      have hj : j < rest.length := by simpa using hi
      have := ih _ _ hrest j hj
      rw [firstAt_cons_succ, lastAt_cons_succ]
      omega

/-- In a covering list, records with smaller index end strictly earlier:
`last i < first j` whenever `i < j`. -/
theorem coversRange_separated :
    ∀ (videos : List VideoRecord) (start stop : Nat),
      coversRange videos start stop = true →
      ∀ i j, i < j → j < videos.length →
        lastAt videos i < firstAt videos j := by
  intro videos
  induction videos with
  | nil => intro start stop _ i j _ hj; simp at hj
  | cons r rest ih =>
    intro start stop h i j hij hj
    obtain ⟨hfirst, hle, hrest⟩ := coversRange_cons h
    cases i with
    | zero =>
      cases j with
      | zero => omega
      | succ j' =>
        have hj' : j' < rest.length := by simpa using hj
        have := coversRange_bounds rest _ _ hrest j' hj'
        rw [lastAt_cons_zero, firstAt_cons_succ]
        omega
    | succ i' =>
      cases j with
      | zero => omega
      | succ j' =>
        have hj' : j' < rest.length := by simpa using hj
        have := ih _ _ hrest i' j' (by omega) hj'
        rw [lastAt_cons_succ, firstAt_cons_succ]
        exact this

/-- `last` is monotone along a covering list. -/
theorem coversRange_last_mono {videos : List VideoRecord} {start stop : Nat}
    (h : coversRange videos start stop = true)
    {i j : Nat} (hij : i ≤ j) (hj : j < videos.length) :
    lastAt videos i ≤ lastAt videos j := by
  rcases Nat.eq_or_lt_of_le hij with rfl | hlt
  · exact Nat.le_refl _
  · have hsep := coversRange_separated videos start stop h i j hlt hj
    have hb := coversRange_bounds videos start stop h j hj
    omega

/-- Any point of `[start, stop)` lies in some record's range. -/
theorem coversRange_exists :
    ∀ (videos : List VideoRecord) (start stop : Nat),
      coversRange videos start stop = true →
      ∀ x, start ≤ x → x < stop →
        ∃ i, i < videos.length ∧ firstAt videos i ≤ x ∧ x ≤ lastAt videos i := by
  intro videos
  induction videos with
  | nil =>
    intro start stop h x hx1 hx2
    simp [coversRange] at h
    omega
  | cons r rest ih =>
    intro start stop h x hx1 hx2
    obtain ⟨hfirst, hle, hrest⟩ := coversRange_cons h
    by_cases hcase : x ≤ r.last
    · refine ⟨0, by simp, ?_, ?_⟩
      · rw [firstAt_cons_zero]; omega
      · rw [lastAt_cons_zero]; exact hcase
    · obtain ⟨i, hi, h1, h2⟩ := ih _ _ hrest x (by omega) hx2
      refine ⟨i + 1, by simpa using hi, ?_, ?_⟩
      · rw [firstAt_cons_succ]; exact h1
      · rw [lastAt_cons_succ]; exact h2

/-- Consecutive records of a covering list abut:
`first (k) = last (k-1) + 1` for `0 < k`. -/
theorem coversRange_abut :
    ∀ (l : List VideoRecord) (a b : Nat), coversRange l a b = true →
      ∀ k, 0 < k → k < l.length → firstAt l k = lastAt l (k - 1) + 1 := by
  intro l
  induction l with
  | nil => intro a b _ k _ hk; simp at hk
  | cons x xs ihl =>
    intro a b hl k hk0 hk
    obtain ⟨hxf, hxle, hxs⟩ := coversRange_cons hl
    cases k with
    | zero => omega
    | succ k' =>
      cases k' with
      | zero =>
        rcases xs with _ | ⟨y, ys⟩
        · simp at hk
        · obtain ⟨hyf, _, _⟩ := coversRange_cons hxs
          rw [firstAt_cons_succ, firstAt_cons_zero, lastAt_cons_zero, hyf]
      | succ k'' =>
        have := ihl _ _ hxs (k'' + 1) (by omega) (by simpa using hk)
        rw [firstAt_cons_succ, show k'' + 1 + 1 - 1 = (k'' + 1 + 1) - 1 from rfl]
        rw [show (k'' + 1 + 1) - 1 = k'' + 1 from rfl, lastAt_cons_succ]
        simpa using this

/-! ### Correctness of the binary search -/

/-- The bisect loop narrows `[lo, hi]` keeping the boundary facts: the
probe is to the right of everything below the result and (within the
initial `hi`) at or before everything from the result on. -/
theorem bisectLoop_bounds (videos : List VideoRecord) (frameIdx : Nat) :
    ∀ fuel lo hi, lo ≤ hi → hi - lo ≤ fuel →
      lo ≤ bisectLoop videos frameIdx fuel lo hi ∧
      bisectLoop videos frameIdx fuel lo hi ≤ hi ∧
      (lo < bisectLoop videos frameIdx fuel lo hi →
        lastAt videos (bisectLoop videos frameIdx fuel lo hi - 1) < frameIdx) ∧
      (bisectLoop videos frameIdx fuel lo hi < hi →
        frameIdx ≤ lastAt videos (bisectLoop videos frameIdx fuel lo hi)) := by
  intro fuel
  induction fuel with
  | zero =>
    intro lo hi hle hfuel
    have : lo = hi := by omega
    subst this
    simp [bisectLoop]
  | succ n ih =>
    intro lo hi hle hfuel
    by_cases hlt : lo < hi
    · have hmid1 : (lo + hi) / 2 < hi := by omega
      have hmid2 : lo ≤ (lo + hi) / 2 := by omega
      by_cases hcmp : frameIdx ≤ lastAt videos ((lo + hi) / 2)
      · have hrec := ih lo ((lo + hi) / 2) hmid2 (by omega)
        simp only [bisectLoop, if_pos hlt, if_pos hcmp]
        refine ⟨hrec.1, by omega, hrec.2.2.1, ?_⟩
        intro hlt2
        rcases Nat.lt_or_ge (bisectLoop videos frameIdx n lo ((lo + hi) / 2))
            ((lo + hi) / 2) with hc | hc
        · exact hrec.2.2.2 hc
        · have : bisectLoop videos frameIdx n lo ((lo + hi) / 2) = (lo + hi) / 2 := by
            omega
          rw [this]
          exact hcmp
      · have hrec := ih ((lo + hi) / 2 + 1) hi (by omega) (by omega)
        simp only [bisectLoop, if_pos hlt, if_neg hcmp]
        refine ⟨by omega, hrec.2.1, ?_, hrec.2.2.2⟩
        intro _
        rcases Nat.lt_or_ge ((lo + hi) / 2 + 1)
            (bisectLoop videos frameIdx n ((lo + hi) / 2 + 1) hi) with hc | hc
        · exact hrec.2.2.1 hc
        · have : bisectLoop videos frameIdx n ((lo + hi) / 2 + 1) hi = (lo + hi) / 2 + 1 := by
            have := hrec.1
            omega
          rw [this]
          simpa using Nat.lt_of_not_le hcmp
    · have : lo = hi := by omega
      subst this
      simp [bisectLoop, hlt]

/-- The boundary facts of `bisect` with the default bounds. -/
theorem bisect_bounds (videos : List VideoRecord) (frameIdx : Nat) :
    bisect videos frameIdx ≤ videos.length ∧
    (0 < bisect videos frameIdx →
      lastAt videos (bisect videos frameIdx - 1) < frameIdx) ∧
    (bisect videos frameIdx < videos.length →
      frameIdx ≤ lastAt videos (bisect videos frameIdx)) := by
  unfold bisect
  have hb := bisectLoop_bounds videos frameIdx videos.length 0 videos.length
    (Nat.zero_le _) (by omega)
  exact ⟨hb.2.1, hb.2.2.1, hb.2.2.2⟩

/-- Under the partition invariant, `bisect` lands on the unique record
containing `frameIdx`. -/
theorem bisect_containing {videos : List VideoRecord} {total frameIdx : Nat}
    (hcov : coversRange videos 0 total = true) (hlt : frameIdx < total) :
    bisect videos frameIdx < videos.length ∧
    firstAt videos (bisect videos frameIdx) ≤ frameIdx ∧
    frameIdx ≤ lastAt videos (bisect videos frameIdx) := by
  have hb := bisect_bounds videos frameIdx
  obtain ⟨i0, hi0, hfirst0, hlast0⟩ :=
    coversRange_exists videos 0 total hcov frameIdx (Nat.zero_le _) hlt
  have hrlen : bisect videos frameIdx ≤ videos.length := hb.1
  -- everything strictly below the result ends before `frameIdx`
  have hbelow : ∀ i, i < bisect videos frameIdx → lastAt videos i < frameIdx := by
    intro i hi
    have h1 : 0 < bisect videos frameIdx := by omega
    have h2 := hb.2.1 h1
    have hmono := coversRange_last_mono hcov
      (show i ≤ bisect videos frameIdx - 1 by omega)
      (show bisect videos frameIdx - 1 < videos.length by omega)
    omega
  have hrlt : bisect videos frameIdx < videos.length := by
    rcases Nat.lt_or_ge (bisect videos frameIdx) videos.length with hc | hc
    · exact hc
    · exfalso
      have := hbelow i0 (by omega)
      omega
  have hrlast : frameIdx ≤ lastAt videos (bisect videos frameIdx) := hb.2.2 hrlt
  refine ⟨hrlt, ?_, hrlast⟩
  -- `first r ≤ frameIdx`: either `r = 0` (range starts at 0) or the
  -- previous record ends strictly before `frameIdx` and ranges abut.
  cases Nat.eq_zero_or_pos (bisect videos frameIdx) with
  | inl hzero =>
    have hf : firstAt videos (bisect videos frameIdx) = 0 := by
      rcases videos with _ | ⟨v, rest⟩
      · simp at hrlt
      · obtain ⟨hfirst, _, _⟩ := coversRange_cons hcov
        rw [hzero, firstAt_cons_zero, hfirst]
    omega
  | inr hpos =>
    have hprev := hbelow (bisect videos frameIdx - 1) (by omega)
    have habut := coversRange_abut videos 0 total hcov (bisect videos frameIdx) hpos hrlt
    omega

/-- Under the partition invariant, `frameIdx`'s containing record is
unique. -/
theorem containing_unique {videos : List VideoRecord} {total frameIdx : Nat}
    (hcov : coversRange videos 0 total = true)
    {i j : Nat} (hi : i < videos.length) (hj : j < videos.length)
    (h1 : firstAt videos i ≤ frameIdx) (h2 : frameIdx ≤ lastAt videos i)
    (h3 : firstAt videos j ≤ frameIdx) (h4 : frameIdx ≤ lastAt videos j) :
    i = j := by
  rcases Nat.lt_trichotomy i j with hc | hc | hc
  · have := coversRange_separated videos 0 total hcov i j hc hj
    omega
  · exact hc
  · have := coversRange_separated videos 0 total hcov j i hc hi
    omega

/-- `List.findIdx?` returns `some i` when the predicate first fires at
`i`. -/
theorem findIdx?_of_first {p : VideoRecord → Bool} :
    ∀ (l : List VideoRecord) (i : Nat), i < l.length →
      (∀ j, j < i → p (l.getD j default) = false) →
      p (l.getD i default) = true →
      l.findIdx? p = some i := by
  intro l
  induction l with
  | nil => intro i hi; simp at hi
  | cons x xs ih =>
    intro i hi hbefore hat
    cases i with
    | zero =>
      simp only [List.getD_cons_zero] at hat
      simp [List.findIdx?_cons, hat]
    | succ i' =>
      have hx : p x = false := by
        have := hbefore 0 (by omega)
        simpa using this
      have := ih i' (by simpa using hi)
        (fun j hj => by simpa using hbefore (j + 1) (by omega))
        (by simpa using hat)
      simp [List.findIdx?_cons, hx, this]

/-- **C1.** For a video index whose records' ranges partition
`[0, total)` in ascending order and any flat index in range, the locate
step (Python `bisect` over the records plus `frame_idx - first`)
returns exactly what the exhaustive linear scan for the unique
containing record returns, with the local offset `frameIdx - first`. -/
theorem locate_eq_linear_scan (videos : List VideoRecord) (total frameIdx : Nat)
    (hcov : coversRange videos 0 total = true) (hlt : frameIdx < total) :
    locate videos frameIdx = linearLocate videos frameIdx ∧
    ∃ i r, videos[i]? = some r ∧ r.first ≤ frameIdx ∧ frameIdx ≤ r.last ∧
      (∀ j, j < videos.length → firstAt videos j ≤ frameIdx →
        frameIdx ≤ lastAt videos j → j = i) ∧
      locate videos frameIdx = some (i, frameIdx - r.first) := by
  obtain ⟨hblt, hbfirst, hblast⟩ := bisect_containing hcov hlt
  have hget : videos[bisect videos frameIdx]? =
      some (videos.getD (bisect videos frameIdx) default) := by
    rw [List.getElem?_eq_getElem hblt]
    congr 1
    exact (List.getD_eq_getElem videos default hblt).symm
  have hlin : linearLocate videos frameIdx =
      some (bisect videos frameIdx, frameIdx - firstAt videos (bisect videos frameIdx)) := by
    unfold linearLocate
    have hfind : videos.findIdx?
        (fun r => r.first ≤ frameIdx && frameIdx ≤ r.last) = some (bisect videos frameIdx) := by
      apply findIdx?_of_first videos (bisect videos frameIdx) hblt
      · intro j hj
        have hjlen : j < videos.length := by omega
        by_cases hfj : firstAt videos j ≤ frameIdx
        · by_cases hlj : frameIdx ≤ lastAt videos j
          · exact absurd (containing_unique hcov hjlen hblt hfj hlj hbfirst hblast)
              (by omega)
          · simp only [Bool.and_eq_false_iff, decide_eq_false_iff_not]
            right
            exact hlj
        · simp only [Bool.and_eq_false_iff, decide_eq_false_iff_not]
          left
          exact hfj
      · simp only [Bool.and_eq_true, decide_eq_true_eq]
        exact ⟨hbfirst, hblast⟩
    rw [hfind]
    rfl
  have hloc : locate videos frameIdx =
      some (bisect videos frameIdx, frameIdx - firstAt videos (bisect videos frameIdx)) := by
    unfold locate
    rw [hget]
    rfl
  refine ⟨by rw [hloc, hlin], bisect videos frameIdx, videos.getD (bisect videos frameIdx) default,
    hget, hbfirst, hblast, ?_, hloc⟩
  intro j hjlen hjf hjl
  exact containing_unique hcov hjlen hblt hjf hjl hbfirst hblast

/-- The worked example from the specification: frame counts 5, 3, 4 give
ranges `[0,4]`, `[5,7]`, `[8,11]`. -/
def exVideos : List VideoRecord :=
  [⟨4, 0, "cat/a.mp4", 0⟩, ⟨7, 5, "dog/b.mp4", 1⟩, ⟨11, 8, "dog/c.mp4", 1⟩]

/-- Witness for C1: on the specification's worked example, `locate 7`
agrees with the linear scan (both give video 1, local offset 2). -/
theorem locate_eq_linear_scan_witness :
    coversRange exVideos 0 12 = true ∧ 7 < 12 ∧
    locate exVideos 7 = linearLocate exVideos 7 ∧ locate exVideos 7 = some (1, 2) := by
  refine ⟨by decide, by decide, (locate_eq_linear_scan exVideos 12 7 (by decide)
    (by decide)).1, by decide⟩

/-! ### The index builder `_make_data_set` (lines 147–166) -/

/-- `VIDEO_EXTENSIONS = ['.mp4']`. -/
def VIDEO_EXTENSIONS : List String := [".mp4"]

/-- `_is_video_file`: does the filename end with a recognized extension?
Python `str.endswith` is a suffix test, embedded on the character
lists. -/
def is_video_file (filename : String) : Bool :=
  VIDEO_EXTENSIONS.any (fun ext => ext.data.isSuffixOf filename.data)

/-- A file listed in a class directory together with the metadata the
external prober (`ffprobe`) reports for it:
`nb_frames = none` embeds `video_meta['video'].get('@nb_frames')`
returning `None` (no frame count). -/
structure DirEntry where
  name : String
  nb_frames : Option Nat
deriving DecidableEq

/-- The failure raised by `int(None)` in line 161 when a probed file
reports no frame count (the specification's `MetadataError`), carrying
the offending relative path. -/
inductive BuildError where
  | metadataError : String → BuildError
deriving DecidableEq

/-- The inner loop of `_make_data_set` over the files of one class
(lines 156–163): for each video file, probe it, then append
`((frames + count - 1, frames), (class/file, class_idx))` and advance
the running total.  Python's `frames - 1` is arbitrary-precision
subtraction; here the record is built as `(frames + count) - 1`, which
agrees with Python whenever the probed count is at least 1 (the regime
of claims C7/C8). -/
def processFiles (class_ : String) (class_idx : Nat) :
    List DirEntry → List VideoRecord → Nat → Except BuildError (List VideoRecord × Nat)
  | [], videos, frames => .ok (videos, frames)
  | f :: rest, videos, frames =>
      if is_video_file f.name then
        match f.nb_frames with
        | none => .error (.metadataError (class_ ++ "/" ++ f.name))
        | some count =>
            let start_idx := frames
            let frames' := frames + count
            processFiles class_ class_idx rest
              (videos ++ [⟨frames' - 1, start_idx, class_ ++ "/" ++ f.name, class_idx⟩])
              frames'
      else
        processFiles class_ class_idx rest videos frames

/-- The outer loop of `_make_data_set` over the (sorted) classes
(line 154); an error in any class aborts the whole build, as the raised
Python exception would. -/
def processClasses (class_to_idx : String → Nat) :
    List (String × List DirEntry) → List VideoRecord → Nat →
      Except BuildError (List VideoRecord × Nat)
  | [], videos, frames => .ok (videos, frames)
  | (class_, files) :: rest, videos, frames =>
      match processFiles class_ (class_to_idx class_) files videos frames with
      | .error e => .error e
      | .ok (videos', frames') => processClasses class_to_idx rest videos' frames'

/-- `_make_data_set(data_path, classes, class_to_idx)`: the directory
listing is supplied as data (the lister is an external collaborator). -/
def make_data_set (listing : List (String × List DirEntry)) (class_to_idx : String → Nat) :
    Except BuildError (List VideoRecord × Nat) :=
  processClasses class_to_idx listing [] 0

/-- Appending one abutting nonempty range extends a covering list. -/
theorem coversRange_append_one :
    ∀ (videos : List VideoRecord) (a b : Nat) (r : VideoRecord),
      coversRange videos a b = true → r.first = b → b ≤ r.last →
      coversRange (videos ++ [r]) a (r.last + 1) = true := by
  intro videos
  induction videos with
  | nil =>
    intro a b r h hf hle
    simp [coversRange] at h
    subst h
    simp [coversRange, hf, hle]
  | cons x xs ih =>
    intro a b r h hf hle
    obtain ⟨hxf, hxle, hxs⟩ := coversRange_cons h
    have := ih _ _ r hxs hf hle
    simp only [List.cons_append, coversRange, Bool.and_eq_true, beq_iff_eq,
      decide_eq_true_eq]
    exact ⟨⟨hxf, hxle⟩, this⟩

/-- If every video file of the class probes to a count of at least 1,
the file loop succeeds and keeps the accumulated list covering. -/
theorem processFiles_covers (class_ : String) (class_idx : Nat) :
    ∀ (files : List DirEntry) (videos : List VideoRecord) (frames : Nat),
      (∀ f ∈ files, is_video_file f.name = true →
        ∃ c, f.nb_frames = some c ∧ 1 ≤ c) →
      coversRange videos 0 frames = true →
      ∃ videos' frames',
        processFiles class_ class_idx files videos frames = .ok (videos', frames') ∧
        coversRange videos' 0 frames' = true := by
  intro files
  induction files with
  | nil =>
    intro videos frames _ hcov
    exact ⟨videos, frames, rfl, hcov⟩
  | cons f rest ih =>
    intro videos frames hprobe hcov
    by_cases hvid : is_video_file f.name = true
    · obtain ⟨c, hc, hc1⟩ := hprobe f (by simp) hvid
      have hcov' : coversRange
          (videos ++ [⟨frames + c - 1, frames, class_ ++ "/" ++ f.name, class_idx⟩])
          0 (frames + c - 1 + 1) = true := by
        apply coversRange_append_one videos 0 frames _ hcov rfl
        show frames ≤ frames + c - 1
        omega
      have hstep : frames + c - 1 + 1 = frames + c := by omega
      rw [hstep] at hcov'
      obtain ⟨videos', frames', hrun, hcovfin⟩ := ih _ (frames + c)
        (fun g hg hgv => hprobe g (by simp [hg]) hgv) hcov'
      refine ⟨videos', frames', ?_, hcovfin⟩
      simp only [processFiles, if_pos hvid, hc]
      exact hrun
    · have hvid' : is_video_file f.name = false := by
        cases h : is_video_file f.name
        · rfl
        · exact absurd h hvid
      obtain ⟨videos', frames', hrun, hcovfin⟩ := ih videos frames
        (fun g hg hgv => hprobe g (by simp [hg]) hgv) hcov
      refine ⟨videos', frames', ?_, hcovfin⟩
      simp only [processFiles, hvid', Bool.false_eq_true, if_false]
      exact hrun

/-- Same for the class loop. -/
theorem processClasses_covers (class_to_idx : String → Nat) :
    ∀ (listing : List (String × List DirEntry)) (videos : List VideoRecord) (frames : Nat),
      (∀ cl ∈ listing, ∀ f ∈ cl.2, is_video_file f.name = true →
        ∃ c, f.nb_frames = some c ∧ 1 ≤ c) →
      coversRange videos 0 frames = true →
      ∃ videos' frames',
        processClasses class_to_idx listing videos frames = .ok (videos', frames') ∧
        coversRange videos' 0 frames' = true := by
  intro listing
  induction listing with
  | nil =>
    intro videos frames _ hcov
    exact ⟨videos, frames, rfl, hcov⟩
  | cons cl rest ih =>
    intro videos frames hprobe hcov
    obtain ⟨videos1, frames1, hrun1, hcov1⟩ :=
      processFiles_covers cl.1 (class_to_idx cl.1) cl.2 videos frames
        (fun f hf => hprobe cl (by simp) f hf) hcov
    obtain ⟨videos', frames', hrun, hcovfin⟩ := ih videos1 frames1
      (fun c hc => hprobe c (by simp [hc])) hcov1
    refine ⟨videos', frames', ?_, hcovfin⟩
    rcases cl with ⟨class_, files⟩
    simp only [processClasses, hrun1]
    exact hrun

/-- Covering lists are sorted strictly ascending by `lastFlatIndex`. -/
theorem coversRange_chain :
    ∀ (videos : List VideoRecord) (a b : Nat), coversRange videos a b = true →
      List.Chain' (fun x y => x.last < y.last) videos := by
  intro videos
  induction videos with
  | nil => intro a b _; simp
  | cons r rest ih =>
    intro a b h
    obtain ⟨hf, hle, hrest⟩ := coversRange_cons h
    refine List.Chain'.cons' (ih _ _ hrest) ?_
    intro y hy
    rcases rest with _ | ⟨s, srest⟩
    · simp at hy
    · obtain ⟨hsf, hsle, _⟩ := coversRange_cons hrest
      have hys : s = y := by simpa [List.head?] using hy
      subst hys
      omega

/-- The listing for the specification's worked index-build scenario:
classes `cat`, `dog`; frame counts `cat/a.mp4 = 5`, `dog/b.mp4 = 3`,
`dog/c.mp4 = 4`. -/
def exListing : List (String × List DirEntry) :=
  [("cat", [⟨"a.mp4", some 5⟩]), ("dog", [⟨"b.mp4", some 3⟩, ⟨"c.mp4", some 4⟩])]

def exClassToIdx : String → Nat := fun c => if c = "dog" then 1 else 0

/-- **C7.** If every probed video file reports a frame count of at
least 1, the index build succeeds and the resulting records' ranges
tile `[0, totalFrames)` contiguously, without overlap, in ascending
`lastFlatIndex` order; the worked 5/3/4 example gives ranges
`[0,4], [5,7], [8,11]` with 12 total frames. -/
theorem make_data_set_partitions (listing : List (String × List DirEntry))
    (class_to_idx : String → Nat)
    (hprobe : ∀ cl ∈ listing, ∀ f ∈ cl.2, is_video_file f.name = true →
      ∃ c, f.nb_frames = some c ∧ 1 ≤ c) :
    (∃ videos total, make_data_set listing class_to_idx = .ok (videos, total) ∧
      coversRange videos 0 total = true ∧
      List.Chain' (fun x y => x.last < y.last) videos) ∧
    make_data_set exListing exClassToIdx = .ok (exVideos, 12) := by
  constructor
  · obtain ⟨videos, total, hrun, hcov⟩ :=
      processClasses_covers class_to_idx listing [] 0 hprobe (by decide)
    exact ⟨videos, total, hrun, hcov, coversRange_chain videos 0 total hcov⟩
  · rfl

/-- Witness for C7 on the worked example listing. -/
theorem make_data_set_partitions_witness :
    ∃ videos total, make_data_set exListing exClassToIdx = .ok (videos, total) ∧
      coversRange videos 0 total = true ∧
      List.Chain' (fun x y => x.last < y.last) videos := by
  exact (make_data_set_partitions exListing exClassToIdx (by decide)).1

/-- **C8.** Probing a video file that reports no frame count aborts the
whole build with a `MetadataError`; the failure happens at the probe
itself, before any record is appended for that file and with the
running frame total untouched — the second conjunct holds for every
accumulator `(videos, frames)` and every remainder of the listing. -/
theorem make_data_set_metadata_error
    (pre : List (String × List DirEntry)) (class_ : String) (prefiles : List DirEntry)
    (f : DirEntry) (rest : List DirEntry) (post : List (String × List DirEntry))
    (class_to_idx : String → Nat)
    (hvid : is_video_file f.name = true) (hnone : f.nb_frames = none)
    (hpre : ∀ cl ∈ pre, ∀ g ∈ cl.2, is_video_file g.name = true →
      ∃ c, g.nb_frames = some c)
    (hprefiles : ∀ g ∈ prefiles, is_video_file g.name = true →
      ∃ c, g.nb_frames = some c) :
    make_data_set (pre ++ (class_, prefiles ++ f :: rest) :: post) class_to_idx =
      .error (.metadataError (class_ ++ "/" ++ f.name)) ∧
    (∀ videos frames rest', processFiles class_ (class_to_idx class_)
      (f :: rest') videos frames = .error (.metadataError (class_ ++ "/" ++ f.name))) := by
  have hstep : ∀ videos frames rest', processFiles class_ (class_to_idx class_)
      (f :: rest') videos frames = .error (.metadataError (class_ ++ "/" ++ f.name)) := by
    intro videos frames rest'
    simp only [processFiles, if_pos hvid, hnone]
  refine ⟨?_, hstep⟩
  -- the prefix of well-probed files runs through and reaches `f`
  have hfiles : ∀ (files : List DirEntry) (videos : List VideoRecord) (frames : Nat),
      (∀ g ∈ files, is_video_file g.name = true → ∃ c, g.nb_frames = some c) →
      ∃ videos' frames', processFiles class_ (class_to_idx class_)
        (files ++ f :: rest) videos frames =
        processFiles class_ (class_to_idx class_) (f :: rest) videos' frames' := by
    intro files
    induction files with
    | nil => intro videos frames _; exact ⟨videos, frames, rfl⟩
    | cons g gs ih =>
      intro videos frames hgs
      by_cases hgv : is_video_file g.name = true
      · obtain ⟨c, hc⟩ := hgs g (by simp) hgv
        obtain ⟨videos', frames', hrun⟩ := ih
          (videos ++ [⟨frames + c - 1, frames, class_ ++ "/" ++ g.name, class_to_idx class_⟩])
          (frames + c) (fun x hx => hgs x (by simp [hx]))
        refine ⟨videos', frames', ?_⟩
        simp only [List.cons_append, processFiles, if_pos hgv, hc]
        exact hrun
      · have hgv' : is_video_file g.name = false := by
          cases h : is_video_file g.name
          · rfl
          · exact absurd h hgv
        obtain ⟨videos', frames', hrun⟩ := ih videos frames
          (fun x hx => hgs x (by simp [hx]))
        refine ⟨videos', frames', ?_⟩
        simp only [List.cons_append, processFiles, hgv', Bool.false_eq_true, if_false]
        exact hrun
  -- the prefix classes succeed (any count, including 0, is accepted)
  have hclasses : ∀ (classes : List (String × List DirEntry))
      (videos : List VideoRecord) (frames : Nat),
      (∀ cl ∈ classes, ∀ g ∈ cl.2, is_video_file g.name = true →
        ∃ c, g.nb_frames = some c) →
      ∃ videos' frames', processClasses class_to_idx classes videos frames =
        .ok (videos', frames') := by
    intro classes
    induction classes with
    | nil => intro videos frames _; exact ⟨videos, frames, rfl⟩
    | cons cl rest' ih =>
      intro videos frames hcl
      have hfilesok : ∀ (files : List DirEntry) (v : List VideoRecord) (fr : Nat),
          (∀ g ∈ files, is_video_file g.name = true → ∃ c, g.nb_frames = some c) →
          ∃ v' fr', processFiles cl.1 (class_to_idx cl.1) files v fr = .ok (v', fr') := by
        intro files
        induction files with
        | nil => intro v fr _; exact ⟨v, fr, rfl⟩
        | cons g gs ihg =>
          intro v fr hgs
          by_cases hgv : is_video_file g.name = true
          · obtain ⟨c, hc⟩ := hgs g (by simp) hgv
            obtain ⟨v', fr', hrun⟩ := ihg
              (v ++ [⟨fr + c - 1, fr, cl.1 ++ "/" ++ g.name, class_to_idx cl.1⟩])
              (fr + c) (fun x hx => hgs x (by simp [hx]))
            refine ⟨v', fr', ?_⟩
            simp only [processFiles, if_pos hgv, hc]
            exact hrun
          · have hgv' : is_video_file g.name = false := by
              cases h : is_video_file g.name
              · rfl
              · exact absurd h hgv
            obtain ⟨v', fr', hrun⟩ := ihg v fr (fun x hx => hgs x (by simp [hx]))
            refine ⟨v', fr', ?_⟩
            simp only [processFiles, hgv', Bool.false_eq_true, if_false]
            exact hrun
      obtain ⟨v1, fr1, hrun1⟩ := hfilesok cl.2 videos frames
        (fun g hg => hcl cl (by simp) g hg)
      obtain ⟨v', fr', hrun⟩ := ih v1 fr1 (fun c hc => hcl c (by simp [hc]))
      refine ⟨v', fr', ?_⟩
      rcases cl with ⟨cname, cfiles⟩
      simp only [processClasses, hrun1]
      exact hrun
  obtain ⟨v1, fr1, hrun1⟩ := hclasses pre [] 0 hpre
  obtain ⟨v2, fr2, hrun2⟩ := hfiles prefiles v1 fr1 hprefiles
  unfold make_data_set
  -- run the class loop to the failing class, then the failing file
  have : processClasses class_to_idx (pre ++ (class_, prefiles ++ f :: rest) :: post)
      [] 0 = .error (.metadataError (class_ ++ "/" ++ f.name)) := by
    have hsplit : ∀ (classes : List (String × List DirEntry))
        (videos : List VideoRecord) (frames : Nat) (v' : List VideoRecord) (fr' : Nat),
        processClasses class_to_idx classes videos frames = .ok (v', fr') →
        processClasses class_to_idx (classes ++ (class_, prefiles ++ f :: rest) :: post)
          videos frames =
          processClasses class_to_idx ((class_, prefiles ++ f :: rest) :: post) v' fr' := by
      intro classes
      induction classes with
      | nil =>
        intro videos frames v' fr' h
        simp only [processClasses] at h
        cases h
        rfl
      | cons cl rest' ih =>
        intro videos frames v' fr' h
        rcases cl with ⟨cname, cfiles⟩
        simp only [processClasses] at h ⊢
        rcases hpf : processFiles cname (class_to_idx cname) cfiles videos frames with e | ⟨vv, ff⟩
        · rw [hpf] at h; simp at h
        · rw [hpf] at h
          simp only at h
          exact ih vv ff v' fr' h
    rw [hsplit pre [] 0 v1 fr1 hrun1]
    simp only [processClasses, hrun2, hstep]
  exact this

/-- Witness for C8: one well-probed `cat` video, then a `dog` video with
no reported frame count. -/
theorem make_data_set_metadata_error_witness :
    make_data_set [("cat", [⟨"a.mp4", some 5⟩]), ("dog", [⟨"b.mp4", none⟩])]
      exClassToIdx = .error (.metadataError "dog/b.mp4") := by
  exact (make_data_set_metadata_error [("cat", [⟨"a.mp4", some 5⟩])] "dog" []
    ⟨"b.mp4", none⟩ [] [] exClassToIdx (by decide) (by decide)
    (by intro cl hcl g hg hv
        simp only [List.mem_singleton] at hcl
        subst hcl
        simp only [List.mem_singleton] at hg
        subst hg
        exact ⟨5, rfl⟩)
    (by intro g hg; simp at hg)).1

/-! ### The wraparound step of `__getitem__` (lines 94–98) -/

/-- Python `a % n` for a natural modulus: raises `ZeroDivisionError`
when `n = 0` (embedded as `none`), otherwise returns the representative
in `[0, n)` — Python's `%` with a positive modulus, like Lean's
`Int.emod`, is never negative. -/
def pyMod (a : Int) (n : Nat) : Option Int :=
  if n = 0 then none else some (a % (n : Int))

/-- The pure part of `__getitem__` (lines 94–97): wrap the flat index,
bisect for the video, read its record.  Returns
`(video_idx, local offset, class label)`; `none` embeds a raised
exception (`ZeroDivisionError` on `% 0`, `IndexError` on the list
access). -/
def getitem (videos : List VideoRecord) (frames : Nat) (frame_idx : Int) :
    Option (Nat × Nat × Nat) :=
  match pyMod frame_idx frames with
  | none => none
  | some w =>
      match locate videos w.toNat with
      | none => none
      | some (video_idx, offset) =>
          some (video_idx, offset, (videos.getD video_idx default).target)

/-- **C5.** On a dataset whose records partition a positive number of
frames, `getitem` never fails for any integer index — negative or far
beyond `totalFrames` — and resolves exactly as the already-wrapped
index does. -/
theorem getitem_wraparound (videos : List VideoRecord) (total : Nat) (frame_idx : Int)
    (hcov : coversRange videos 0 total = true) (hpos : 0 < total) :
    getitem videos total frame_idx = getitem videos total (frame_idx % (total : Int)) ∧
    (getitem videos total frame_idx).isSome := by
  have hne : (total : Int) ≠ 0 := by
    simp only [ne_eq, Nat.cast_eq_zero]
    omega
  have hmod : frame_idx % (total : Int) % (total : Int) = frame_idx % (total : Int) :=
    Int.emod_emod_of_dvd frame_idx dvd_rfl
  have hmod_nonneg : 0 ≤ frame_idx % (total : Int) := Int.emod_nonneg frame_idx hne
  have hmod_lt : frame_idx % (total : Int) < (total : Int) :=
    Int.emod_lt_of_pos frame_idx (by exact_mod_cast hpos)
  have htotal : (frame_idx % (total : Int)).toNat < total := by omega
  have hpy : pyMod frame_idx total = some (frame_idx % (total : Int)) := by
    simp [pyMod]
    omega
  have hpy' : pyMod (frame_idx % (total : Int)) total = some (frame_idx % (total : Int)) := by
    simp [pyMod, hmod]
    omega
  obtain ⟨_, i, r, hget, _, _, _, hloc⟩ :=
    locate_eq_linear_scan videos total (frame_idx % (total : Int)).toNat hcov htotal
  constructor
  · unfold getitem
    rw [hpy, hpy']
  · unfold getitem
    rw [hpy]
    simp [hloc]

/-- Witness for C5 on the worked example: index `-5` wraps to `7`. -/
theorem getitem_wraparound_witness :
    coversRange exVideos 0 12 = true ∧ 0 < 12 ∧
    getitem exVideos 12 (-5) = getitem exVideos 12 ((-5) % (12 : Int)) ∧
    getitem exVideos 12 (-5) = some (1, 2, 1) := by
  refine ⟨by decide, by decide,
    (getitem_wraparound exVideos 12 (-5) (by decide) (by decide)).1, by decide⟩

/-- **C10.** On a dataset with zero total frames — e.g. one whose class
directories hold no recognized video files, for which the builder
returns an empty index with `totalFrames = 0` — every `getitem` call
fails at the wraparound step itself (`% 0` raises), for every integer
index; the no-range-error guarantee of C5 needs `totalFrames > 0`. -/
theorem getitem_total_zero (videos : List VideoRecord) (frame_idx : Int)
    (listing : List (String × List DirEntry)) (class_to_idx : String → Nat)
    (hempty : ∀ cl ∈ listing, ∀ f ∈ cl.2, is_video_file f.name = false) :
    getitem videos 0 frame_idx = none ∧
    make_data_set listing class_to_idx = .ok ([], 0) := by
  constructor
  · rfl
  · have hfiles : ∀ (cl : String) (ci : Nat) (files : List DirEntry),
        (∀ f ∈ files, is_video_file f.name = false) →
        ∀ videos' frames', processFiles cl ci files videos' frames' = .ok (videos', frames') := by
      intro cl ci files
      induction files with
      | nil => intro _ videos' frames'; rfl
      | cons f rest ih =>
        intro hf videos' frames'
        have hfv := hf f (by simp)
        simp only [processFiles, hfv, Bool.false_eq_true, if_false]
        exact ih (fun g hg => hf g (by simp [hg])) videos' frames'
    have : ∀ (classes : List (String × List DirEntry)),
        (∀ cl ∈ classes, ∀ f ∈ cl.2, is_video_file f.name = false) →
        ∀ videos' frames', processClasses class_to_idx classes videos' frames' =
          .ok (videos', frames') := by
      intro classes
      induction classes with
      | nil => intro _ videos' frames'; rfl
      | cons cl rest ih =>
        intro hcl videos' frames'
        rcases cl with ⟨cname, cfiles⟩
        simp only [processClasses,
          hfiles cname (class_to_idx cname) cfiles
            (fun f hf => hcl (cname, cfiles) (by simp) f hf) videos' frames']
        exact ih (fun c hc => hcl c (by simp [hc])) videos' frames'
    exact this listing hempty [] 0

/-- Witness for C10: a listing with only a text file builds an empty,
zero-frame index on which every read fails. -/
theorem getitem_total_zero_witness :
    getitem [] 0 5 = none ∧
    make_data_set [("cat", [⟨"notes.txt", none⟩])] exClassToIdx = .ok ([], 0) := by
  exact getitem_total_zero [] 5 [("cat", [⟨"notes.txt", none⟩])] exClassToIdx (by decide)

end VideoFolder

namespace BatchSampler

/-- The `BatchSampler` object (lines 22–40): `samples_per_row` is
`ceil(len(data_source) / batch_size)` and `num_samples` fakes the
length as `samples_per_row * batch_size`.  Python computes the ceiling
with `math.ceil` on a float quotient; on naturals with `batch_size ≥ 1`
that is `(len + batch_size - 1) / batch_size`. -/
structure State where
  batch_size : Nat
  samples_per_row : Nat
  num_samples : Nat
deriving DecidableEq

/-- `BatchSampler.__init__(data_source, batch_size)` with
`len(data_source) = data_len`. -/
def init (data_len batch_size : Nat) : State :=
  { batch_size := batch_size
    samples_per_row := (data_len + batch_size - 1) / batch_size
    num_samples := ((data_len + batch_size - 1) / batch_size) * batch_size }

/-- The sequence produced by `__iter__`:
`(samples_per_row * i + j for j in range(samples_per_row)
                          for i in range(batch_size))`. -/
def iterList (s : State) : List Nat :=
  (List.range s.samples_per_row).flatMap
    (fun j => (List.range s.batch_size).map (fun i => s.samples_per_row * i + j))

/-- `__len__`. -/
def length (s : State) : Nat := s.num_samples

/-- Concatenating equal-length blocks has predictable length. -/
theorem flatMap_length_const {α : Type} (l : List α) (f : α → List Nat) (m : Nat)
    (h : ∀ a ∈ l, (f a).length = m) : (l.flatMap f).length = l.length * m := by
  induction l with
  | nil => simp
  | cons x xs ih =>
    have hx := h x (by simp)
    have := ih (fun a ha => h a (by simp [ha]))
    simp only [List.flatMap_cons, List.length_append, hx, this, List.length_cons]
    ring

theorem getD_append_left (l1 l2 : List Nat) (i : Nat) (h : i < l1.length) :
    (l1 ++ l2).getD i 0 = l1.getD i 0 := by
  induction l1 generalizing i with
  | nil => simp at h
  | cons x xs ih =>
    cases i with
    | zero => rfl
    | succ i' =>
      have := ih i' (by simpa using h)
      simpa using this

theorem getD_append_right (l1 l2 : List Nat) (i : Nat) :
    (l1 ++ l2).getD (l1.length + i) 0 = l2.getD i 0 := by
  induction l1 with
  | nil => simp
  | cons x xs ih =>
    simpa [Nat.succ_add] using ih

theorem map_range_getD (n : Nat) (f : Nat → Nat) (i : Nat) (h : i < n) :
    ((List.range n).map f).getD i 0 = f i := by
  induction n with
  | zero => omega
  | succ n' ih =>
    rw [List.range_succ, List.map_append]
    rcases Nat.lt_or_ge i n' with hc | hc
    · rw [getD_append_left _ _ i (by simpa using hc)]
      exact ih hc
    · have hi : i = n' := by omega
      subst hi
      have hlen : ((List.range i).map f).length = i := by simp
      have hright := getD_append_right ((List.range i).map f) ([i].map f) 0
      rw [hlen, Nat.add_zero] at hright
      rw [hright]
      rfl

/-- Indexing into a concatenation of `N` equal-length blocks. -/
theorem flatMap_range_getD (N m : Nat) (g : Nat → List Nat)
    (hm : ∀ j, (g j).length = m) :
    ∀ j i, j < N → i < m →
      ((List.range N).flatMap g).getD (j * m + i) 0 = (g j).getD i 0 := by
  induction N with
  | zero => intro j i hj; omega
  | succ N' ih =>
    intro j i hj hi
    rw [List.range_succ, List.flatMap_append]
    rcases Nat.lt_or_ge j N' with hc | hc
    · have hlen : ((List.range N').flatMap g).length = N' * m := by
        rw [flatMap_length_const _ _ m (fun a _ => hm a)]
        simp
      have hmul : j * m + m ≤ N' * m := by
        have h1 : (j + 1) * m ≤ N' * m := Nat.mul_le_mul_right m (by omega)
        calc j * m + m = (j + 1) * m := by ring
          _ ≤ N' * m := h1
      have hlt : j * m + i < ((List.range N').flatMap g).length := by
        rw [hlen]
        omega
      rw [getD_append_left _ _ _ hlt]
      exact ih j i hc hi
    · have hj' : j = N' := by omega
      subst hj'
      have hlen : ((List.range j).flatMap g).length = j * m := by
        rw [flatMap_length_const _ _ m (fun a _ => hm a)]
        simp
      have hright := getD_append_right ((List.range j).flatMap g) ([j].flatMap g) i
      rw [hlen] at hright
      rw [hright]
      simp

/-- **C4.** For a dataset of `total` frames and a batch size `B ≥ 1`,
the sampler's sequence has exactly `rows * B` entries where `rows` is
the ceiling of `total / B` (characterised arithmetically), its reported
length agrees, and entry `j * B + i` — the `i`-th index of row `j` — is
`j + rows * i`; in particular `total = 12`, `B = 5` gives length 15 and
row 0 equal to `(0, 3, 6, 9, 12)`. -/
theorem iter_rows (total B : Nat) (hB : 1 ≤ B) :
    (iterList (init total B)).length = ((total + B - 1) / B) * B ∧
    length (init total B) = ((total + B - 1) / B) * B ∧
    total ≤ ((total + B - 1) / B) * B ∧
    ((total + B - 1) / B) * B < total + B ∧
    (∀ j i, j < (total + B - 1) / B → i < B →
      (iterList (init total B)).getD (j * B + i) 0 = j + ((total + B - 1) / B) * i) ∧
    (iterList (init 12 5)).length = 15 ∧
    (iterList (init 12 5)).take 5 = [0, 3, 6, 9, 12] := by
  have hcomm : ((total + B - 1) / B) * B = B * ((total + B - 1) / B) :=
    Nat.mul_comm _ _
  have hceil1 : total ≤ ((total + B - 1) / B) * B := by
    have h1 := Nat.div_add_mod (total + B - 1) B
    have h2 : (total + B - 1) % B < B := Nat.mod_lt _ (by omega)
    -- `q * B + r = total + B - 1` with `r < B` forces `q * B ≥ total`
    omega
  have hceil2 : ((total + B - 1) / B) * B < total + B := by
    have h1 := Nat.div_add_mod (total + B - 1) B
    have h2 : (total + B - 1) % B < B := Nat.mod_lt _ (by omega)
    omega
  have hblock : ∀ j, ((List.range B).map
      (fun i => ((total + B - 1) / B) * i + j)).length = B := by
    intro j
    simp
  refine ⟨?_, ?_, hceil1, hceil2, ?_, by decide, by decide⟩
  · unfold iterList init
    rw [flatMap_length_const _ _ B (fun a _ => hblock a)]
    simp
  · rfl
  · intro j i hj hi
    unfold iterList init
    rw [flatMap_range_getD ((total + B - 1) / B) B _ hblock j i hj hi,
      map_range_getD B _ i hi]
    ring

/-- Witness for C4 at `total = 12`, `B = 5`. -/
theorem iter_rows_witness :
    (iterList (init 12 5)).length = 15 ∧ length (init 12 5) = 15 ∧
    (iterList (init 12 5)).getD (0 * 5 + 4) 0 = 0 + 3 * 4 := by
  have h := iter_rows 12 5 (by decide)
  exact ⟨h.1, h.2.1, h.2.2.2.2.1 0 4 (by decide) (by decide)⟩

end BatchSampler

namespace VideoFolder

/-! ### The decode-cursor cache `_get_frame` (lines 109–129)

A Python "opened video" is the mutable list `[seek, islice_iterator,
video_file]` held in `self.opened_videos[video_idx]`.  The embedding
keeps the seek pointer (`ov[0]`), a fresh `id` standing for Python
object identity (mutation and `list.remove` act on the object, not on a
value copy), a ghost `served` history of the local offsets the cursor
has delivered, and a `closed` flag mirroring `video_file._close()`.
The frame payload is abstracted to the offset it decodes; decoder
exhaustion (`DecodeError`) is outside the indexed claims. -/

structure Cursor where
  seek : Nat
  id : Nat
  served : List Nat
  closed : Bool
deriving DecidableEq

/-- The cache state: `pools` is `self.opened_videos` (one list per
video), `retired` is a ghost log of the cursors removed from their pool
(with their video index), `nextId` generates fresh identities. -/
structure CacheState where
  pools : List (List Cursor)
  retired : List (Nat × Cursor)
  nextId : Nat
deriving DecidableEq

/-- `self.opened_videos = [[] for _ in videos]`. -/
def initState (numVideos : Nat) : CacheState :=
  { pools := List.replicate numVideos [], retired := [], nextId := 0 }

def poolAt (st : CacheState) (v : Nat) : List Cursor := st.pools.getD v []

/-- `opened_video[0] = seek + 1` followed by `next(opened_video[1])`:
the cursor whose identity matches is advanced and logs the offset it
just delivered. -/
def updateServe (seek cid : Nat) (c : Cursor) : Cursor :=
  if c.id == cid then { c with seek := seek + 1, served := c.served ++ [seek] } else c

/-- One `_get_frame(seek, video_idx, last)` call.
1. look for a matching handle: first `ov` with `ov[0] == seek`;
2. if none, open a fresh cursor at `seek` and append it to the pool;
3. advance the serving cursor's seek pointer and pull one frame;
4. if `last`, close the file and remove the cursor from the pool
   (Python `list.remove` removes the mutated object itself; identities
   are unique, so filtering on the identity is that removal). -/
def get_frame (st : CacheState) (seek video_idx : Nat) (last : Bool) :
    CacheState × Nat :=
  let pool := poolAt st video_idx
  let found := pool.find? (fun ov => ov.seek == seek)
  let cid := match found with
    | some ov => ov.id
    | none => st.nextId
  let pool1 := match found with
    | some _ => pool
    | none => pool ++ [({ seek := seek, id := st.nextId, served := [], closed := false } : Cursor)]
  let nid := match found with
    | some _ => st.nextId
    | none => st.nextId + 1
  let pool2 := pool1.map (updateServe seek cid)
  if last then
    ({ pools := st.pools.set video_idx (pool2.filter (fun c => c.id != cid)),
       retired := st.retired ++
         (pool2.filter (fun c => c.id == cid)).map (fun c => (video_idx, { c with closed := true })),
       nextId := nid }, seek)
  else
    ({ pools := st.pools.set video_idx pool2, retired := st.retired, nextId := nid }, seek)

/-- Run a sequence of raw `_get_frame` requests
`(seek, video_idx, last)`. -/
def runSteps (st : CacheState) : List (Nat × Nat × Bool) → CacheState
  | [] => st
  | (seek, video_idx, last) :: rest => runSteps (get_frame st seek video_idx last).1 rest

/-- One Dataset-Facade request: `__getitem__` wraps the flat index,
locates the video and calls `_get_frame(wrapped - first, video_idx,
wrapped == last)`.  The two error branches (`% 0`, index out of range)
cannot fire under the partition hypotheses of the theorems below and
leave the state unchanged. -/
def facadeStep (videos : List VideoRecord) (frames : Nat) (st : CacheState)
    (frame_idx : Int) : CacheState :=
  match pyMod frame_idx frames with
  | none => st
  | some w =>
      match videos[bisect videos w.toNat]? with
      | none => st
      | some r => (get_frame st (w.toNat - r.first) (bisect videos w.toNat)
          (w.toNat == r.last)).1

/-- Run a sequence of Facade `get(flatIndex)` requests. -/
def runFacade (videos : List VideoRecord) (frames : Nat) (st : CacheState) :
    List Int → CacheState
  | [] => st
  | x :: xs => runFacade videos frames (facadeStep videos frames st x) xs

/-! ### List helpers for the pool bookkeeping -/

theorem getD_set_self {α : Type} (l : List α) (i : Nat) (x d : α) (h : i < l.length) :
    (l.set i x).getD i d = x := by
  induction l generalizing i with
  | nil => simp at h
  | cons y ys ih =>
    cases i with
    | zero => rfl
    | succ i' => exact ih i' (by simpa using h)

theorem getD_set_ne {α : Type} (l : List α) (i j : Nat) (x d : α) (h : j ≠ i) :
    (l.set i x).getD j d = l.getD j d := by
  induction l generalizing i j with
  | nil => simp
  | cons y ys ih =>
    cases i with
    | zero =>
      cases j with
      | zero => omega
      | succ j' => rfl
    | succ i' =>
      cases j with
      | zero => rfl
      | succ j' => exact ih i' j' (by omega)

theorem getD_replicate_nil (n i : Nat) :
    (List.replicate n ([] : List Cursor)).getD i [] = [] := by
  induction n generalizing i with
  | zero => simp
  | succ n' ih =>
    cases i with
    | zero => rfl
    | succ i' => exact ih i'

/-- With pairwise-distinct identities, an identity determines the pool
member (object identity, as Python mutation relies on). -/
theorem pairwise_id_unique {l : List Cursor}
    (hp : l.Pairwise (fun a b => a.id ≠ b.id)) :
    ∀ a ∈ l, ∀ b ∈ l, a.id = b.id → a = b := by
  induction l with
  | nil => intro a ha; simp at ha
  | cons x xs ih =>
    intro a ha b hb hid
    rcases List.mem_cons.1 ha with rfl | ha'
    · rcases List.mem_cons.1 hb with rfl | hb'
      · rfl
      · exact absurd hid ((List.pairwise_cons.1 hp).1 b hb')
    · rcases List.mem_cons.1 hb with rfl | hb'
      · exact absurd hid.symm ((List.pairwise_cons.1 hp).1 a ha')
      · exact ih (List.pairwise_cons.1 hp).2 a ha' b hb' hid

theorem updateServe_id (seek cid : Nat) (c : Cursor) :
    (updateServe seek cid c).id = c.id := by
  unfold updateServe
  split <;> rfl

theorem updateServe_closed (seek cid : Nat) (c : Cursor) :
    (updateServe seek cid c).closed = c.closed := by
  unfold updateServe
  split <;> rfl

theorem updateServe_of_ne (seek cid : Nat) (c : Cursor) (h : c.id ≠ cid) :
    updateServe seek cid c = c := by
  unfold updateServe
  simp [h]

theorem updateServe_of_eq (seek cid : Nat) (c : Cursor) (h : c.id = cid) :
    updateServe seek cid c =
      { c with seek := seek + 1, served := c.served ++ [seek] } := by
  unfold updateServe
  simp [h]

theorem range'_snoc : ∀ (n s : Nat), List.range' s (n + 1) = List.range' s n ++ [s + n] := by
  intro n
  induction n with
  | zero => intro s; simp [List.range'_succ]
  | succ n' ih =>
    intro s
    rw [List.range'_succ s (n' + 1) 1, ih (s + 1)]
    rw [List.range'_succ s n' 1]
    simp only [List.cons_append]
    rw [show s + 1 + n' = s + (n' + 1) by omega]

/-! ### The cache invariant -/

/-- A cursor's ghost history is one consecutive run `s, s+1, …, s+n-1`
of length `n ≥ 1`, and its seek pointer sits one past its last served
offset. -/
def CursorRun (c : Cursor) : Prop :=
  ∃ s n, 0 < n ∧ c.served = List.range' s n ∧ c.seek = s + n

/-- The reachable-state invariant of the cursor cache: identities in a
pool are pairwise distinct and fresh relative to `nextId`, and every
cursor — pooled or retired — has served a consecutive run. -/
def Inv (st : CacheState) : Prop :=
  (∀ v, (poolAt st v).Pairwise (fun a b => a.id ≠ b.id)) ∧
  (∀ v, ∀ c ∈ poolAt st v, c.id < st.nextId) ∧
  (∀ v, ∀ c ∈ poolAt st v, CursorRun c) ∧
  (∀ p ∈ st.retired, CursorRun p.2)

theorem poolAt_initState (n v : Nat) : poolAt (initState n) v = [] := by
  unfold poolAt initState
  exact getD_replicate_nil n v

theorem Inv_initState (numVideos : Nat) : Inv (initState numVideos) := by
  refine ⟨?_, ?_, ?_, ?_⟩
  · intro v
    rw [poolAt_initState]
    simp
  · intro v c hc
    rw [poolAt_initState] at hc
    simp at hc
  · intro v c hc
    rw [poolAt_initState] at hc
    simp at hc
  · intro p hp
    simp [initState] at hp

/-- Reducing `get_frame` when a matching cursor is found. -/
theorem get_frame_found (st : CacheState) (seek v : Nat) (last : Bool) (ov : Cursor)
    (hfind : (poolAt st v).find? (fun c => c.seek == seek) = some ov) :
    (get_frame st seek v last).1 =
      if last then
        { pools := st.pools.set v
            (((poolAt st v).map (updateServe seek ov.id)).filter (fun c => c.id != ov.id)),
          retired := st.retired ++
            (((poolAt st v).map (updateServe seek ov.id)).filter
              (fun c => c.id == ov.id)).map (fun c => (v, { c with closed := true })),
          nextId := st.nextId }
      else
        { pools := st.pools.set v ((poolAt st v).map (updateServe seek ov.id)),
          retired := st.retired, nextId := st.nextId } := by
  cases last with
  | false =>
    simp only [get_frame]
    rw [hfind]
    rfl
  | true =>
    simp only [get_frame]
    rw [hfind]
    rfl

/-- Reducing `get_frame` when no cursor matches and a fresh one is
opened. -/
theorem get_frame_none (st : CacheState) (seek v : Nat) (last : Bool)
    (hfind : (poolAt st v).find? (fun c => c.seek == seek) = none) :
    (get_frame st seek v last).1 =
      if last then
        { pools := st.pools.set v
            ((((poolAt st v) ++ [(⟨seek, st.nextId, [], false⟩ : Cursor)]).map
              (updateServe seek st.nextId)).filter (fun c => c.id != st.nextId)),
          retired := st.retired ++
            ((((poolAt st v) ++ [(⟨seek, st.nextId, [], false⟩ : Cursor)]).map
              (updateServe seek st.nextId)).filter
              (fun c => c.id == st.nextId)).map (fun c => (v, { c with closed := true })),
          nextId := st.nextId + 1 }
      else
        { pools := st.pools.set v
            (((poolAt st v) ++ [(⟨seek, st.nextId, [], false⟩ : Cursor)]).map
              (updateServe seek st.nextId)),
          retired := st.retired, nextId := st.nextId + 1 } := by
  cases last with
  | false =>
    simp only [get_frame]
    rw [hfind]
    rfl
  | true =>
    simp only [get_frame]
    rw [hfind]
    rfl

theorem find?_cursor {pool : List Cursor} {seek : Nat} {ov : Cursor}
    (h : pool.find? (fun c => c.seek == seek) = some ov) :
    ov ∈ pool ∧ ov.seek = seek :=
  ⟨List.mem_of_find?_eq_some h, by simpa using List.find?_some h⟩

/-- Serving one more frame extends a consecutive run by one. -/
theorem CursorRun_update {c : Cursor} {seek : Nat}
    (h : CursorRun c) (hs : c.seek = seek) :
    CursorRun { c with seek := seek + 1, served := c.served ++ [seek] } := by
  obtain ⟨s, n, hn, hserved, hseek⟩ := h
  refine ⟨s, n + 1, by omega, ?_, ?_⟩
  · show c.served ++ [seek] = List.range' s (n + 1)
    rw [range'_snoc, hserved, ← hs, hseek]
  · show seek + 1 = s + (n + 1)
    omega

/-- A freshly opened cursor that has just served its opening offset. -/
theorem CursorRun_new (seek nid : Nat) :
    CursorRun { seek := seek + 1, id := nid, served := [seek], closed := false } := by
  refine ⟨seek, 1, by omega, ?_, rfl⟩
  rw [List.range'_succ seek 0 1]
  rfl

/-- The invariant only mentions `served` and `seek`, so closing the
underlying file preserves it. -/
theorem CursorRun_closed {c : Cursor} (h : CursorRun c) :
    CursorRun { c with closed := true } := h

theorem poolAt_mk (pools : List (List Cursor)) (retired : List (Nat × Cursor))
    (nid w : Nat) :
    poolAt { pools := pools, retired := retired, nextId := nid } w =
      pools.getD w [] := rfl

/-- Generic preservation: any update that replaces one pool by a list of
well-formed cursors with fresh-bounded, pairwise-distinct identities and
keeps only well-formed retired entries preserves the invariant. -/
theorem Inv_of_set {st : CacheState} (v : Nat) (P : List Cursor)
    (R : List (Nat × Cursor)) (nid : Nat)
    (hpw : ∀ w, (poolAt st w).Pairwise (fun a b => a.id ≠ b.id))
    (hfresh : ∀ w, ∀ c ∈ poolAt st w, c.id < st.nextId)
    (hrun : ∀ w, ∀ c ∈ poolAt st w, CursorRun c)
    (hP1 : P.Pairwise (fun a b => a.id ≠ b.id))
    (hP2 : ∀ c ∈ P, c.id < nid)
    (hP3 : ∀ c ∈ P, CursorRun c)
    (hnid : st.nextId ≤ nid)
    (hR : ∀ p ∈ R, CursorRun p.2) :
    Inv { pools := st.pools.set v P, retired := R, nextId := nid } := by
  have hpool : ∀ w, (st.pools.set v P).getD w [] = P ∨
      (st.pools.set v P).getD w [] = poolAt st w := by
    intro w
    by_cases hw : w = v
    · subst hw
      by_cases hlen : w < st.pools.length
      · exact Or.inl (getD_set_self st.pools w P [] hlen)
      · refine Or.inr ?_
        rw [List.set_eq_of_length_le (by omega)]
        rfl
    · exact Or.inr (getD_set_ne st.pools v w P [] hw)
  refine ⟨?_, ?_, ?_, ?_⟩
  · intro w
    rw [poolAt_mk]
    rcases hpool w with hw | hw
    · rw [hw]; exact hP1
    · rw [hw]; exact hpw w
  · intro w c hc
    rw [poolAt_mk] at hc
    rcases hpool w with hw | hw
    · rw [hw] at hc; exact hP2 c hc
    · rw [hw] at hc
      have := hfresh w c hc
      show c.id < nid
      omega
  · intro w c hc
    rw [poolAt_mk] at hc
    rcases hpool w with hw | hw
    · rw [hw] at hc; exact hP3 c hc
    · rw [hw] at hc; exact hrun w c hc
  · intro p hp
    exact hR p hp

/-- Every cursor of the updated pool of a lookup hit is well formed. -/
theorem pool2_found_facts {st : CacheState} {v seek : Nat} {ov : Cursor}
    (hpw : (poolAt st v).Pairwise (fun a b => a.id ≠ b.id))
    (hfresh : ∀ c ∈ poolAt st v, c.id < st.nextId)
    (hrun : ∀ c ∈ poolAt st v, CursorRun c)
    (hfind : (poolAt st v).find? (fun c => c.seek == seek) = some ov) :
    ((poolAt st v).map (updateServe seek ov.id)).Pairwise (fun a b => a.id ≠ b.id) ∧
    (∀ c ∈ (poolAt st v).map (updateServe seek ov.id), c.id < st.nextId) ∧
    (∀ c ∈ (poolAt st v).map (updateServe seek ov.id), CursorRun c) := by
  obtain ⟨hovmem, hovseek⟩ := find?_cursor hfind
  refine ⟨?_, ?_, ?_⟩
  · exact (List.pairwise_map).2 (hpw.imp (by
      intro a b hab
      rw [updateServe_id, updateServe_id]
      exact hab))
  · intro c' hc'
    obtain ⟨c, hc, rfl⟩ := List.mem_map.1 hc'
    rw [updateServe_id]
    exact hfresh c hc
  · intro c' hc'
    obtain ⟨c, hc, rfl⟩ := List.mem_map.1 hc'
    by_cases hid : c.id = ov.id
    · have hco : c = ov := pairwise_id_unique hpw c hc ov hovmem hid
      subst hco
      rw [updateServe_of_eq seek c.id c rfl]
      exact CursorRun_update (hrun c hc) hovseek
    · rw [updateServe_of_ne seek ov.id c hid]
      exact hrun c hc

/-- Every cursor of the updated pool of a lookup miss is well formed. -/
theorem pool2_none_facts {st : CacheState} {v seek : Nat}
    (hpw : (poolAt st v).Pairwise (fun a b => a.id ≠ b.id))
    (hfresh : ∀ c ∈ poolAt st v, c.id < st.nextId)
    (hrun : ∀ c ∈ poolAt st v, CursorRun c) :
    ((poolAt st v ++ [(⟨seek, st.nextId, [], false⟩ : Cursor)]).map
        (updateServe seek st.nextId)).Pairwise (fun a b => a.id ≠ b.id) ∧
    (∀ c ∈ (poolAt st v ++ [(⟨seek, st.nextId, [], false⟩ : Cursor)]).map
        (updateServe seek st.nextId), c.id < st.nextId + 1) ∧
    (∀ c ∈ (poolAt st v ++ [(⟨seek, st.nextId, [], false⟩ : Cursor)]).map
        (updateServe seek st.nextId), CursorRun c) := by
  have hpw1 : ((poolAt st v) ++ [(⟨seek, st.nextId, [], false⟩ : Cursor)]).Pairwise
      (fun a b => a.id ≠ b.id) := by
    rw [List.pairwise_append]
    refine ⟨hpw, by simp, ?_⟩
    intro a ha b hb
    have hb' : b = (⟨seek, st.nextId, [], false⟩ : Cursor) := by simpa using hb
    subst hb'
    have := hfresh a ha
    show a.id ≠ st.nextId
    omega
  refine ⟨?_, ?_, ?_⟩
  · exact (List.pairwise_map).2 (hpw1.imp (by
      intro a b hab
      rw [updateServe_id, updateServe_id]
      exact hab))
  · intro c' hc'
    obtain ⟨c, hc, rfl⟩ := List.mem_map.1 hc'
    rw [updateServe_id]
    rcases List.mem_append.1 hc with hc | hc
    · have := hfresh c hc
      omega
    · have hc' : c = (⟨seek, st.nextId, [], false⟩ : Cursor) := by simpa using hc
      subst hc'
      show st.nextId < st.nextId + 1
      omega
  · intro c' hc'
    obtain ⟨c, hc, rfl⟩ := List.mem_map.1 hc'
    rcases List.mem_append.1 hc with hc | hc
    · have hid : c.id ≠ st.nextId := by
        have := hfresh c hc
        omega
      rw [updateServe_of_ne seek st.nextId c hid]
      exact hrun c hc
    · have hc' : c = (⟨seek, st.nextId, [], false⟩ : Cursor) := by simpa using hc
      subst hc'
      rw [updateServe_of_eq seek st.nextId _ rfl]
      exact CursorRun_new seek st.nextId

/-- The cache invariant is preserved by every `_get_frame` call. -/
theorem Inv_get_frame (st : CacheState) (seek v : Nat) (last : Bool) (h : Inv st) :
    Inv (get_frame st seek v last).1 := by
  obtain ⟨hpw, hfresh, hrun, hret⟩ := h
  cases hfind : (poolAt st v).find? (fun c => c.seek == seek) with
  | some ov =>
    obtain ⟨hp1, hp2, hp3⟩ := pool2_found_facts (hpw v) (hfresh v) (hrun v) hfind
    rw [get_frame_found st seek v last ov hfind]
    cases last with
    | false =>
      simp only [if_neg (by simp : ¬ (false = true))]
      exact Inv_of_set v _ st.retired st.nextId hpw hfresh hrun hp1 hp2 hp3 (by omega) hret
    | true =>
      simp only [if_pos rfl]
      refine Inv_of_set v _ _ st.nextId hpw hfresh hrun
        (hp1.sublist (List.filter_sublist _)) ?_ ?_ (by omega) ?_
      · intro c hc
        exact hp2 c (List.mem_filter.1 hc).1
      · intro c hc
        exact hp3 c (List.mem_filter.1 hc).1
      · intro p hp
        rcases List.mem_append.1 hp with hp | hp
        · exact hret p hp
        · obtain ⟨c, hc, rfl⟩ := List.mem_map.1 hp
          exact CursorRun_closed (hp3 c (List.mem_filter.1 hc).1)
  | none =>
    obtain ⟨hp1, hp2, hp3⟩ := pool2_none_facts (hpw v) (hfresh v) (hrun v)
    rw [get_frame_none st seek v last hfind]
    cases last with
    | false =>
      simp only [if_neg (by simp : ¬ (false = true))]
      exact Inv_of_set v _ st.retired (st.nextId + 1) hpw hfresh hrun hp1 hp2 hp3
        (by omega) hret
    | true =>
      simp only [if_pos rfl]
      refine Inv_of_set v _ _ (st.nextId + 1) hpw hfresh hrun
        (hp1.sublist (List.filter_sublist _)) ?_ ?_ (by omega) ?_
      · intro c hc
        exact hp2 c (List.mem_filter.1 hc).1
      · intro c hc
        exact hp3 c (List.mem_filter.1 hc).1
      · intro p hp
        rcases List.mem_append.1 hp with hp | hp
        · exact hret p hp
        · obtain ⟨c, hc, rfl⟩ := List.mem_map.1 hp
          exact CursorRun_closed (hp3 c (List.mem_filter.1 hc).1)

/-- The invariant holds in every state reachable by raw `_get_frame`
requests. -/
theorem Inv_runSteps : ∀ (trace : List (Nat × Nat × Bool)) (st : CacheState),
    Inv st → Inv (runSteps st trace) := by
  intro trace
  induction trace with
  | nil => intro st h; exact h
  | cons t rest ih =>
    intro st h
    rcases t with ⟨seek, v, last⟩
    exact ih _ (Inv_get_frame st seek v last h)

theorem map_eq_self_of (l : List Cursor) (f : Cursor → Cursor)
    (h : ∀ c ∈ l, f c = c) : l.map f = l := by
  induction l with
  | nil => rfl
  | cons x xs ih =>
    simp only [List.map_cons, h x (by simp)]
    rw [ih (fun c hc => h c (by simp [hc]))]

/-- **C6.** In every state reachable by `_get_frame` requests, each
cursor — pooled or retired — has served one consecutive, strictly
increasing run of offsets (so it never repeats an offset), and its seek
pointer sits one past the offset it served last; a lookup only ever hits
a cursor whose `expectedNextOffset` equals the requested offset, and a
request matching no cursor appends one fresh cursor that has just served
the requested offset, instead of failing. -/
theorem cursor_sequential_runs (numVideos : Nat) (trace : List (Nat × Nat × Bool)) :
    (∀ v, ∀ c ∈ poolAt (runSteps (initState numVideos) trace) v,
      ∃ s n, 0 < n ∧ c.served = List.range' s n ∧ c.seek = s + n ∧ c.served.Nodup) ∧
    (∀ p ∈ (runSteps (initState numVideos) trace).retired,
      ∃ s n, 0 < n ∧ p.2.served = List.range' s n ∧ p.2.seek = s + n ∧
        p.2.served.Nodup) ∧
    (∀ seek v ov, (poolAt (runSteps (initState numVideos) trace) v).find?
      (fun c => c.seek == seek) = some ov → ov.seek = seek) ∧
    (∀ seek v, v < (runSteps (initState numVideos) trace).pools.length →
      (poolAt (runSteps (initState numVideos) trace) v).find?
        (fun c => c.seek == seek) = none →
      poolAt (get_frame (runSteps (initState numVideos) trace) seek v false).1 v =
        poolAt (runSteps (initState numVideos) trace) v ++
          [⟨seek + 1, (runSteps (initState numVideos) trace).nextId, [seek], false⟩]) := by
  obtain ⟨hpw, hfresh, hrun, hret⟩ := Inv_runSteps trace _ (Inv_initState numVideos)
  refine ⟨?_, ?_, ?_, ?_⟩
  · intro v c hc
    obtain ⟨s, n, hn, hserved, hseek⟩ := hrun v c hc
    exact ⟨s, n, hn, hserved, hseek, by rw [hserved]; exact List.nodup_range' s n⟩
  · intro p hp
    obtain ⟨s, n, hn, hserved, hseek⟩ := hret p hp
    exact ⟨s, n, hn, hserved, hseek, by rw [hserved]; exact List.nodup_range' s n⟩
  · intro seek v ov hov
    exact (find?_cursor hov).2
  · intro seek v hv hnone
    rw [get_frame_none _ seek v false hnone]
    simp only [if_neg (by simp : ¬ (false = true))]
    rw [poolAt_mk, getD_set_self _ _ _ _ hv, List.map_append]
    have hmap : (poolAt (runSteps (initState numVideos) trace) v).map
        (updateServe seek (runSteps (initState numVideos) trace).nextId) =
        poolAt (runSteps (initState numVideos) trace) v := by
      apply map_eq_self_of
      intro c hc
      apply updateServe_of_ne
      have := hfresh v c hc
      omega
    rw [hmap]
    congr 1
    rw [List.map_cons, List.map_nil,
      updateServe_of_eq seek (runSteps (initState numVideos) trace).nextId _ rfl]
    rfl

/-- Witness for C6: after serving offsets 0 then 1 of video 0, the only
cursor's history is the run `[0, 1]` with seek pointer 2. -/
theorem cursor_sequential_runs_witness :
    ∃ s n, 0 < n ∧ (⟨2, 0, [0, 1], false⟩ : Cursor).served = List.range' s n ∧
      (⟨2, 0, [0, 1], false⟩ : Cursor).seek = s + n ∧
      (⟨2, 0, [0, 1], false⟩ : Cursor).served.Nodup :=
  (cursor_sequential_runs 1 [(0, 0, false), (1, 0, false)]).1 0
    ⟨2, 0, [0, 1], false⟩ (by decide)

/-! ### Offset-uniqueness in a pool (claim C3) -/

/-- The local offsets a raw request trace asks of video `v`, in
order. -/
def offsetsFor (v : Nat) (trace : List (Nat × Nat × Bool)) : List Nat :=
  (trace.filter (fun t => t.2.1 == v)).map (fun t => t.1)

/-- Auxiliary invariant: seek pointers within one pool are pairwise
distinct, and every cursor's seek pointer is one past some offset
already requested of its video. -/
def SeekInv (st : CacheState) (R : Nat → List Nat) : Prop :=
  ∀ v, (poolAt st v).Pairwise (fun a b => a.seek ≠ b.seek) ∧
    ∀ c ∈ poolAt st v, ∃ o ∈ R v, c.seek = o + 1

theorem SeekInv_congr {st : CacheState} {F G : Nat → List Nat} (h : SeekInv st F)
    (hFG : ∀ v, F v = G v) : SeekInv st G := by
  intro v
  refine ⟨(h v).1, ?_⟩
  intro c hc
  obtain ⟨o, ho, hoe⟩ := (h v).2 c hc
  refine ⟨o, ?_, hoe⟩
  rw [← hFG v]
  exact ho

theorem offsetsFor_cons_self (v seek : Nat) (last : Bool)
    (rest : List (Nat × Nat × Bool)) :
    offsetsFor v ((seek, v, last) :: rest) = seek :: offsetsFor v rest := by
  simp [offsetsFor]

theorem offsetsFor_cons_ne (w v seek : Nat) (last : Bool)
    (rest : List (Nat × Nat × Bool)) (h : v ≠ w) :
    offsetsFor w ((seek, v, last) :: rest) = offsetsFor w rest := by
  simp [offsetsFor, h]

/-- Generic step for the seek invariant: the touched pool is replaced by
`P` whose seeks are distinct and linked to `R v ++ S`; other pools keep
their requests. -/
theorem SeekInv_of_set {st : CacheState} {R : Nat → List Nat} (v : Nat)
    (P : List Cursor) (retired' : List (Nat × Cursor)) (nid : Nat) (S : List Nat)
    (hS : SeekInv st R)
    (hP1 : P.Pairwise (fun a b => a.seek ≠ b.seek))
    (hP2 : ∀ c ∈ P, ∃ o ∈ R v ++ S, c.seek = o + 1) :
    SeekInv { pools := st.pools.set v P, retired := retired', nextId := nid }
      (fun w => if w = v then R w ++ S else R w) := by
  intro w
  by_cases hw : w = v
  · subst hw
    by_cases hlen : w < st.pools.length
    · rw [poolAt_mk, getD_set_self _ _ _ _ hlen]
      refine ⟨hP1, ?_⟩
      intro c hc
      obtain ⟨o, ho, hoe⟩ := hP2 c hc
      refine ⟨o, ?_, hoe⟩
      simp only [if_pos rfl]
      exact ho
    · rw [poolAt_mk, List.set_eq_of_length_le (by omega)]
      refine ⟨(hS w).1, ?_⟩
      intro c hc
      obtain ⟨o, ho, hoe⟩ := (hS w).2 c hc
      refine ⟨o, ?_, hoe⟩
      simp only [if_pos rfl]
      exact List.mem_append.2 (Or.inl ho)
  · rw [poolAt_mk, getD_set_ne _ _ _ _ _ hw]
    refine ⟨(hS w).1, ?_⟩
    intro c hc
    obtain ⟨o, ho, hoe⟩ := (hS w).2 c hc
    refine ⟨o, ?_, hoe⟩
    simp only [if_neg hw]
    exact ho

/-- One `_get_frame` call at a not-yet-requested offset preserves
pairwise-distinct seek pointers. -/
theorem SeekInv_get_frame (st : CacheState) (seek v : Nat) (last : Bool)
    (R : Nat → List Nat) (hInv : Inv st) (hS : SeekInv st R) (hnew : seek ∉ R v) :
    SeekInv (get_frame st seek v last).1
      (fun w => if w = v then R w ++ [seek] else R w) := by
  obtain ⟨hpw, hfresh, hrun, hret⟩ := hInv
  -- no cursor of pool `v` can already sit at `seek + 1`
  have hnoseek : ∀ c ∈ poolAt st v, c.seek ≠ seek + 1 := by
    intro c hc hcs
    obtain ⟨o, ho, hoe⟩ := (hS v).2 c hc
    have : o = seek := by omega
    subst this
    exact hnew ho
  cases hfind : (poolAt st v).find? (fun c => c.seek == seek) with
  | some ov =>
    obtain ⟨hovmem, hovseek⟩ := find?_cursor hfind
    have hP1 : ((poolAt st v).map (updateServe seek ov.id)).Pairwise
        (fun a b => a.seek ≠ b.seek) := by
      refine (List.pairwise_map).2 (List.Pairwise.imp_of_mem ?_ ((hpw v).and (hS v).1))
      intro a b ha hb hab
      obtain ⟨hid, hseek⟩ := hab
      by_cases hay : a.id = ov.id
      · have ha' : a = ov := pairwise_id_unique (hpw v) a ha ov hovmem hay
        subst ha'
        rw [updateServe_of_eq seek a.id a rfl,
          updateServe_of_ne seek a.id b (by omega)]
        show seek + 1 ≠ b.seek
        exact fun hc => hnoseek b hb hc.symm
      · by_cases hby : b.id = ov.id
        · have hb' : b = ov := pairwise_id_unique (hpw v) b hb ov hovmem hby
          subst hb'
          rw [updateServe_of_ne seek b.id a (by omega),
            updateServe_of_eq seek b.id b rfl]
          show a.seek ≠ seek + 1
          exact hnoseek a ha
        · rw [updateServe_of_ne seek ov.id a hay, updateServe_of_ne seek ov.id b hby]
          exact hseek
    have hP2 : ∀ c' ∈ (poolAt st v).map (updateServe seek ov.id),
        ∃ o ∈ R v ++ [seek], c'.seek = o + 1 := by
      intro c' hc'
      obtain ⟨c, hc, rfl⟩ := List.mem_map.1 hc'
      by_cases hcy : c.id = ov.id
      · refine ⟨seek, by simp, ?_⟩
        rw [updateServe_of_eq seek ov.id c hcy]
      · obtain ⟨o, ho, hoe⟩ := (hS v).2 c hc
        refine ⟨o, List.mem_append.2 (Or.inl ho), ?_⟩
        rw [updateServe_of_ne seek ov.id c hcy]
        exact hoe
    rw [get_frame_found st seek v last ov hfind]
    cases last with
    | false =>
      simp only [if_neg (by simp : ¬ (false = true))]
      exact SeekInv_of_set v _ _ _ [seek] hS hP1 hP2
    | true =>
      simp only [if_pos rfl]
      refine SeekInv_of_set v _ _ _ [seek] hS
        (hP1.sublist (List.filter_sublist _)) ?_
      intro c hc
      exact hP2 c (List.mem_filter.1 hc).1
  | none =>
    have hmapid : (poolAt st v).map (updateServe seek st.nextId) = poolAt st v := by
      apply map_eq_self_of
      intro c hc
      apply updateServe_of_ne
      have := hfresh v c hc
      omega
    have hP1 : ((poolAt st v ++ [(⟨seek, st.nextId, [], false⟩ : Cursor)]).map
        (updateServe seek st.nextId)).Pairwise (fun a b => a.seek ≠ b.seek) := by
      rw [List.map_append, hmapid, List.map_cons, List.map_nil,
        updateServe_of_eq seek st.nextId _ rfl]
      rw [List.pairwise_append]
      refine ⟨(hS v).1, by simp, ?_⟩
      intro a ha b hb
      have hb' : b = (⟨seek + 1, st.nextId, [] ++ [seek], false⟩ : Cursor) := by
        simpa using hb
      subst hb'
      show a.seek ≠ seek + 1
      exact hnoseek a ha
    have hP2 : ∀ c' ∈ (poolAt st v ++ [(⟨seek, st.nextId, [], false⟩ : Cursor)]).map
        (updateServe seek st.nextId), ∃ o ∈ R v ++ [seek], c'.seek = o + 1 := by
      rw [List.map_append, hmapid, List.map_cons, List.map_nil,
        updateServe_of_eq seek st.nextId _ rfl]
      intro c' hc'
      rcases List.mem_append.1 hc' with hc' | hc'
      · obtain ⟨o, ho, hoe⟩ := (hS v).2 c' hc'
        exact ⟨o, List.mem_append.2 (Or.inl ho), hoe⟩
      · have hc'' : c' = (⟨seek + 1, st.nextId, [] ++ [seek], false⟩ : Cursor) := by
          simpa using hc'
        subst hc''
        exact ⟨seek, by simp, rfl⟩
    rw [get_frame_none st seek v last hfind]
    cases last with
    | false =>
      simp only [if_neg (by simp : ¬ (false = true))]
      exact SeekInv_of_set v _ _ _ [seek] hS hP1 hP2
    | true =>
      simp only [if_pos rfl]
      refine SeekInv_of_set v _ _ _ [seek] hS
        (hP1.sublist (List.filter_sublist _)) ?_
      intro c hc
      exact hP2 c (List.mem_filter.1 hc).1

/-- The seek invariant carried along a whole trace of pairwise-fresh
requests. -/
theorem SeekInv_runSteps :
    ∀ (trace : List (Nat × Nat × Bool)) (st : CacheState) (R : Nat → List Nat),
      Inv st → SeekInv st R →
      (∀ v, (R v ++ offsetsFor v trace).Nodup) →
      SeekInv (runSteps st trace) (fun v => R v ++ offsetsFor v trace) := by
  intro trace
  induction trace with
  | nil =>
    intro st R _ hS hnd
    exact SeekInv_congr hS (by intro v; simp [offsetsFor])
  | cons t rest ih =>
    intro st R hInv hS hnd
    rcases t with ⟨seek, v, last⟩
    have hnew : seek ∉ R v := by
      have := hnd v
      rw [offsetsFor_cons_self] at this
      have h1 := (List.nodup_append.1 this).2.2
      intro hmem
      exact h1 hmem (by simp)
    have hstep := SeekInv_get_frame st seek v last R hInv hS hnew
    have hInv' := Inv_get_frame st seek v last hInv
    have hrest := ih (get_frame st seek v last).1
      (fun w => if w = v then R w ++ [seek] else R w) hInv' hstep ?_
    · refine SeekInv_congr hrest ?_
      intro w
      by_cases hw : w = v
      · subst hw
        show (if w = w then R w ++ [seek] else R w) ++ offsetsFor w rest =
          R w ++ offsetsFor w ((seek, w, last) :: rest)
        rw [if_pos rfl, offsetsFor_cons_self, List.append_assoc]
        rfl
      · show (if w = v then R w ++ [seek] else R w) ++ offsetsFor w rest =
          R w ++ offsetsFor w ((seek, v, last) :: rest)
        rw [if_neg hw, offsetsFor_cons_ne w v seek last rest (by omega)]
    · intro w
      by_cases hw : w = v
      · subst hw
        show ((if w = w then R w ++ [seek] else R w) ++ offsetsFor w rest).Nodup
        rw [if_pos rfl, List.append_assoc]
        have := hnd w
        rw [offsetsFor_cons_self] at this
        simpa using this
      · show ((if w = v then R w ++ [seek] else R w) ++ offsetsFor w rest).Nodup
        rw [if_neg hw]
        have := hnd w
        rw [offsetsFor_cons_ne w v seek last rest (by omega)] at this
        exact this

/-- **C3 (amended).** Provided no local offset is requested twice for
the same video across the trace, at most one cursor of any pool carries
a given `expectedNextOffset` at a time.  (Without that proviso the
original claim fails; see the counterexample.) -/
theorem pool_offsets_unique (numVideos : Nat) (trace : List (Nat × Nat × Bool))
    (hdist : ∀ v, (offsetsFor v trace).Nodup) :
    ∀ v, (poolAt (runSteps (initState numVideos) trace) v).Pairwise
      (fun a b => a.seek ≠ b.seek) := by
  have h0 : SeekInv (initState numVideos) (fun _ => []) := by
    intro v
    rw [poolAt_initState]
    exact ⟨by simp, by simp⟩
  have h := SeekInv_runSteps trace (initState numVideos) (fun _ => [])
    (Inv_initState numVideos) h0 (by intro v; simpa using hdist v)
  intro v
  exact (h v).1

/-- Witness for amended C3: two distinct offsets of the same video leave
two cursors at distinct seek pointers. -/
theorem pool_offsets_unique_witness :
    (poolAt (runSteps (initState 1) [(0, 0, false), (5, 0, false)]) 0).Pairwise
      (fun a b => a.seek ≠ b.seek) :=
  pool_offsets_unique 1 [(0, 0, false), (5, 0, false)]
    (by
      intro v
      rcases v with _ | v'
      · decide
      · have h : offsetsFor (v' + 1) [(0, 0, false), (5, 0, false)] = [] := by
          simp [offsetsFor]
        rw [h]
        exact List.nodup_nil) 0

/-- **C3 (counterexample).**  The claim as stated is false: requesting
the same in-range flat index twice through the Facade (here flat index
2 of the worked example, twice) leaves two distinct cursors in video
0's pool both with `expectedNextOffset = 3` — the second request finds
no cursor at offset 2 (the first has moved on to 3) and opens a fresh
one, which then also advances to 3. -/
theorem pool_offsets_clash :
    (⟨3, 0, [2], false⟩ : Cursor) ∈
      poolAt (runFacade exVideos 12 (initState 3) [2, 2]) 0 ∧
    (⟨3, 1, [2], false⟩ : Cursor) ∈
      poolAt (runFacade exVideos 12 (initState 3) [2, 2]) 0 ∧
    (⟨3, 0, [2], false⟩ : Cursor) ≠ (⟨3, 1, [2], false⟩ : Cursor) ∧
    (⟨3, 0, [2], false⟩ : Cursor).seek = (⟨3, 1, [2], false⟩ : Cursor).seek := by
  decide

/-! ### Cursor eviction at end of video (claim C2) -/

/-- The Facade-level cache invariant: a pooled cursor is open and has
not yet delivered its video's final frame; a retired cursor is closed
and its very last delivered offset is the final frame of its video. -/
def FInv (videos : List VideoRecord) (st : CacheState) : Prop :=
  (∀ v r, videos[v]? = some r → ∀ c ∈ poolAt st v,
      c.closed = false ∧ (r.last - r.first) ∉ c.served) ∧
  (∀ p ∈ st.retired, ∃ r, videos[p.1]? = some r ∧ p.2.closed = true ∧
      p.2.served.getLast? = some (r.last - r.first))

theorem FInv_of_set {videos : List VideoRecord} {st : CacheState} (v : Nat)
    (P : List Cursor) (R : List (Nat × Cursor)) (nid : Nat)
    (hF : FInv videos st)
    (hP : ∀ r, videos[v]? = some r → ∀ c ∈ P,
      c.closed = false ∧ (r.last - r.first) ∉ c.served)
    (hR : ∀ p ∈ R, ∃ r, videos[p.1]? = some r ∧ p.2.closed = true ∧
      p.2.served.getLast? = some (r.last - r.first)) :
    FInv videos { pools := st.pools.set v P, retired := R, nextId := nid } := by
  have hpool : ∀ w, (st.pools.set v P).getD w [] = P ∧ w = v ∨
      (st.pools.set v P).getD w [] = poolAt st w := by
    intro w
    by_cases hw : w = v
    · subst hw
      by_cases hlen : w < st.pools.length
      · exact Or.inl ⟨getD_set_self st.pools w P [] hlen, rfl⟩
      · refine Or.inr ?_
        rw [List.set_eq_of_length_le (by omega)]
        rfl
    · exact Or.inr (getD_set_ne st.pools v w P [] hw)
  constructor
  · intro w r hr c hc
    rw [poolAt_mk] at hc
    rcases hpool w with ⟨hw, rfl⟩ | hw
    · rw [hw] at hc
      exact hP r hr c hc
    · rw [hw] at hc
      exact hF.1 w r hr c hc
  · intro p hp
    exact hR p hp

/-- One faithful `_get_frame` call preserves the eviction invariant,
when the requested offset lies in the video's range and the `last` flag
is set exactly at the final frame — as `__getitem__` guarantees. -/
theorem FInv_get_frame {videos : List VideoRecord} {st : CacheState} {v seek : Nat}
    {r : VideoRecord} (lastFlag : Bool)
    (hget : videos[v]? = some r)
    (hInv : Inv st) (hF : FInv videos st)
    (hflag : lastFlag = true ↔ seek = r.last - r.first) :
    FInv videos (get_frame st seek v lastFlag).1 := by
  obtain ⟨hpw, hfresh, hrun, hret⟩ := hInv
  have hrfun : ∀ r', videos[v]? = some r' → r' = r := by
    intro r' hr'
    rw [hget] at hr'
    exact (Option.some_inj.1 hr').symm
  cases hfind : (poolAt st v).find? (fun c => c.seek == seek) with
  | some ov =>
    obtain ⟨hovmem, hovseek⟩ := find?_cursor hfind
    rw [get_frame_found st seek v lastFlag ov hfind]
    cases lastFlag with
    | false =>
      simp only [if_neg (by simp : ¬ (false = true))]
      have hne : seek ≠ r.last - r.first := fun hc => by simp [hc] at hflag
      refine FInv_of_set v _ _ _ ⟨hF.1, hF.2⟩ ?_ hF.2
      intro r' hr' c' hc'
      have := hrfun r' hr'
      subst this
      obtain ⟨c, hc, rfl⟩ := List.mem_map.1 hc'
      obtain ⟨hcl, hns⟩ := hF.1 v r' hget c hc
      by_cases hcy : c.id = ov.id
      · rw [updateServe_of_eq seek ov.id c hcy]
        refine ⟨hcl, ?_⟩
        intro hmem
        rcases List.mem_append.1 hmem with hmem | hmem
        · exact hns hmem
        · have : r'.last - r'.first = seek := by simpa using hmem
          exact hne this.symm
      · rw [updateServe_of_ne seek ov.id c hcy]
        exact ⟨hcl, hns⟩
    | true =>
      simp only [if_pos rfl]
      have hfin : seek = r.last - r.first := hflag.1 rfl
      refine FInv_of_set v _ _ _ ⟨hF.1, hF.2⟩ ?_ ?_
      · intro r' hr' c' hc'
        have := hrfun r' hr'
        subst this
        have hc2 := List.mem_filter.1 hc'
        obtain ⟨c, hc, rfl⟩ := List.mem_map.1 hc2.1
        have hcid : c.id ≠ ov.id := by
          have := hc2.2
          rw [updateServe_id] at this
          simpa using this
        rw [updateServe_of_ne seek ov.id c hcid]
        exact hF.1 v r' hget c hc
      · intro p hp
        rcases List.mem_append.1 hp with hp | hp
        · exact hF.2 p hp
        · obtain ⟨c', hc', rfl⟩ := List.mem_map.1 hp
          have hc2 := List.mem_filter.1 hc'
          obtain ⟨c, hc, rfl⟩ := List.mem_map.1 hc2.1
          have hcid : c.id = ov.id := by
            have := hc2.2
            rw [updateServe_id] at this
            simpa using this
          have hcov' : c = ov := pairwise_id_unique (hpw v) c hc ov hovmem hcid
          subst hcov'
          refine ⟨r, hget, rfl, ?_⟩
          rw [updateServe_of_eq seek c.id c rfl]
          show (c.served ++ [seek]).getLast? = some (r.last - r.first)
          rw [List.getLast?_concat, hfin]
  | none =>
    have hnewmem : ∀ c, c ∈ poolAt st v ++ [(⟨seek, st.nextId, [], false⟩ : Cursor)] →
        c.id = st.nextId → c = (⟨seek, st.nextId, [], false⟩ : Cursor) := by
      intro c hc hcid
      rcases List.mem_append.1 hc with hc | hc
      · have := hfresh v c hc
        omega
      · simpa using hc
    rw [get_frame_none st seek v lastFlag hfind]
    cases lastFlag with
    | false =>
      simp only [if_neg (by simp : ¬ (false = true))]
      have hne : seek ≠ r.last - r.first := fun hc => by simp [hc] at hflag
      refine FInv_of_set v _ _ _ ⟨hF.1, hF.2⟩ ?_ hF.2
      intro r' hr' c' hc'
      have := hrfun r' hr'
      subst this
      obtain ⟨c, hc, rfl⟩ := List.mem_map.1 hc'
      by_cases hcy : c.id = st.nextId
      · have hcnew := hnewmem c hc hcy
        subst hcnew
        rw [updateServe_of_eq seek st.nextId _ hcy]
        refine ⟨rfl, ?_⟩
        intro hmem
        have : r'.last - r'.first = seek := by simpa using hmem
        exact hne this.symm
      · rw [updateServe_of_ne seek st.nextId c hcy]
        rcases List.mem_append.1 hc with hc | hc
        · exact hF.1 v r' hget c hc
        · have : c = (⟨seek, st.nextId, [], false⟩ : Cursor) := by simpa using hc
          subst this
          simp at hcy
    | true =>
      simp only [if_pos rfl]
      have hfin : seek = r.last - r.first := hflag.1 rfl
      refine FInv_of_set v _ _ _ ⟨hF.1, hF.2⟩ ?_ ?_
      · intro r' hr' c' hc'
        have := hrfun r' hr'
        subst this
        have hc2 := List.mem_filter.1 hc'
        obtain ⟨c, hc, rfl⟩ := List.mem_map.1 hc2.1
        have hcid : c.id ≠ st.nextId := by
          have := hc2.2
          rw [updateServe_id] at this
          simpa using this
        rw [updateServe_of_ne seek st.nextId c hcid]
        rcases List.mem_append.1 hc with hc | hc
        · exact hF.1 v r' hget c hc
        · have : c = (⟨seek, st.nextId, [], false⟩ : Cursor) := by simpa using hc
          subst this
          simp at hcid
      · intro p hp
        rcases List.mem_append.1 hp with hp | hp
        · exact hF.2 p hp
        · obtain ⟨c', hc', rfl⟩ := List.mem_map.1 hp
          have hc2 := List.mem_filter.1 hc'
          obtain ⟨c, hc, rfl⟩ := List.mem_map.1 hc2.1
          have hcid : c.id = st.nextId := by
            have := hc2.2
            rw [updateServe_id] at this
            simpa using this
          have hcnew := hnewmem c hc hcid
          subst hcnew
          refine ⟨r, hget, rfl, ?_⟩
          rw [updateServe_of_eq seek st.nextId _ rfl]
          show (([] : List Nat) ++ [seek]).getLast? = some (r.last - r.first)
          rw [List.getLast?_concat, hfin]

/-- Both invariants are preserved by every Facade request. -/
theorem FInv_facadeStep (videos : List VideoRecord) (total : Nat) (st : CacheState)
    (x : Int) (hcov : coversRange videos 0 total = true)
    (hInv : Inv st) (hF : FInv videos st) :
    Inv (facadeStep videos total st x) ∧ FInv videos (facadeStep videos total st x) := by
  unfold facadeStep
  cases htot : pyMod x total with
  | none => exact ⟨hInv, hF⟩
  | some w =>
    have htotpos : total ≠ 0 := by
      intro hc
      rw [hc] at htot
      simp [pyMod] at htot
    have hw : w = x % (total : Int) := by
      unfold pyMod at htot
      rw [if_neg htotpos] at htot
      exact (Option.some_inj.1 htot).symm
    have hwlt : w.toNat < total := by
      have h1 : 0 ≤ x % (total : Int) := Int.emod_nonneg x (by exact_mod_cast htotpos)
      have h2 : x % (total : Int) < (total : Int) :=
        Int.emod_lt_of_pos x (by exact_mod_cast Nat.pos_of_ne_zero htotpos)
      omega
    obtain ⟨hblt, hbfirst, hblast⟩ := bisect_containing hcov hwlt
    have hget : videos[bisect videos w.toNat]? =
        some (videos.getD (bisect videos w.toNat) default) := by
      rw [List.getElem?_eq_getElem hblt]
      congr 1
      exact (List.getD_eq_getElem videos default hblt).symm
    simp only [hget]
    have hflag : (w.toNat == (videos.getD (bisect videos w.toNat) default).last) = true ↔
        w.toNat - (videos.getD (bisect videos w.toNat) default).first =
          (videos.getD (bisect videos w.toNat) default).last -
            (videos.getD (bisect videos w.toNat) default).first := by
      rw [beq_iff_eq]
      unfold firstAt at hbfirst
      unfold lastAt at hblast
      omega
    exact ⟨Inv_get_frame st _ _ _ hInv, FInv_get_frame _ hget hInv hF hflag⟩

theorem FInv_runFacade (videos : List VideoRecord) (total : Nat)
    (hcov : coversRange videos 0 total = true) :
    ∀ (trace : List Int) (st : CacheState), Inv st → FInv videos st →
      Inv (runFacade videos total st trace) ∧
      FInv videos (runFacade videos total st trace) := by
  intro trace
  induction trace with
  | nil => intro st hInv hF; exact ⟨hInv, hF⟩
  | cons x xs ih =>
    intro st hInv hF
    obtain ⟨hInv', hF'⟩ := FInv_facadeStep videos total st x hcov hInv hF
    exact ih _ hInv' hF'

theorem FInv_initState (videos : List VideoRecord) :
    FInv videos (initState videos.length) := by
  constructor
  · intro v r _ c hc
    rw [poolAt_initState] at hc
    simp at hc
  · intro p hp
    simp [initState] at hp

/-- **C2.** Along any sequence of Facade `get` requests on a partitioned
index: every cursor still pooled is open and has never delivered its
video's final frame, and every cursor ever removed from a pool was
closed in that same call and had just delivered its video's final frame
as its very last offset — so eviction happens exactly at the final
frame, never before, never after. -/
theorem cursor_eviction_iff (videos : List VideoRecord) (total : Nat)
    (hcov : coversRange videos 0 total = true) (trace : List Int) :
    (∀ v r, videos[v]? = some r →
      ∀ c ∈ poolAt (runFacade videos total (initState videos.length) trace) v,
        c.closed = false ∧ (r.last - r.first) ∉ c.served) ∧
    (∀ p ∈ (runFacade videos total (initState videos.length) trace).retired,
      ∃ r, videos[p.1]? = some r ∧ p.2.closed = true ∧
        p.2.served.getLast? = some (r.last - r.first)) :=
  (FInv_runFacade videos total hcov trace (initState videos.length)
    (Inv_initState videos.length) (FInv_initState videos)).2

/-- Witness for C2: after `get(0)` on the worked example, the single
cursor of video 0 is open and its history `[0]` avoids the final local
offset 4; after `get(4)` (the last frame of `cat/a.mp4`), the retired
cursor is closed with final offset 4 as its last served offset. -/
theorem cursor_eviction_iff_witness :
    ((⟨1, 0, [0], false⟩ : Cursor).closed = false ∧
      ((⟨4, 0, "cat/a.mp4", 0⟩ : VideoRecord).last -
        (⟨4, 0, "cat/a.mp4", 0⟩ : VideoRecord).first) ∉
        (⟨1, 0, [0], false⟩ : Cursor).served) ∧
    ∃ r, exVideos[(0 : Nat)]? = some r ∧
      (⟨5, 0, [4], true⟩ : Cursor).closed = true ∧
      (⟨5, 0, [4], true⟩ : Cursor).served.getLast? = some (r.last - r.first) := by
  constructor
  · exact (cursor_eviction_iff exVideos 12 (by decide) [0]).1 0
      ⟨4, 0, "cat/a.mp4", 0⟩ (by decide) ⟨1, 0, [0], false⟩ (by decide)
  · exact (cursor_eviction_iff exVideos 12 (by decide) [4]).2 (0, ⟨5, 0, [4], true⟩)
      (by decide)

end VideoFolder

namespace VideoCollate

/-! ### The collator `VideoCollate.__call__` (lines 43–67)

Samples are what the Dataset contract returns: torch tensors (external
objects, abstracted to their shapes — `torch.cat`/`view` act only on
shapes here), Python ints, or tuples of sub-samples.  The final
`TypeError` branch of the source concerns sample kinds outside this
grammar and is not modelled. -/

inductive Sample where
  | tensor : List Nat → Sample
  | int : Int → Sample
  | tuple : List Sample → Sample

/-- A collated batch: a tensor (shape only) or a tuple of results. -/
inductive Batched where
  | tensor : List Nat → Batched
  | tuple : List Batched → Batched

/-- Is this a tensor of exactly the given shape?  `torch.cat` demands
matching shapes after `unsqueeze(0)`. -/
def isTensorOf (sh : List Nat) : Sample → Bool
  | .tensor sh2 => sh2 == sh
  | _ => false

def isInt : Sample → Bool
  | .int _ => true
  | _ => false

/-- `zip(*batch)` iterates every element; here every element must be a
tuple, whose component lists are collected. -/
def toRows : List Sample → Option (List (List Sample))
  | [] => some []
  | .tuple l :: rest =>
      match toRows rest with
      | none => none
      | some rs => some (l :: rs)
  | _ => none

/-- `zip` truncates at the shortest tuple. -/
def minArity : List (List Sample) → Nat
  | [] => 0
  | [r] => r.length
  | r :: rs => min r.length (minArity rs)

/-- Sequencing the recursive sub-collations: any failure fails the
whole call, as a raised exception would. -/
def seqOption : List (Option Batched) → Option (List Batched)
  | [] => some []
  | none :: _ => none
  | some b :: rest => (seqOption rest).map (fun bs => b :: bs)

/-- The `p`-th per-position group of the transposed batch. -/
def column (rows : List (List Sample)) (p : Nat) : List Sample :=
  rows.map (fun r => r.getD p (Sample.int 0))

theorem sizeOf_getD_lt (l : List Sample) (p : Nat) (hp : p < l.length) :
    sizeOf (l.getD p (Sample.int 0)) < sizeOf l := by
  induction l generalizing p with
  | nil => simp at hp
  | cons x xs ih =>
    cases p with
    | zero =>
      rw [List.getD_cons_zero]
      have := List.cons.sizeOf_spec x xs
      omega
    | succ p' =>
      rw [List.getD_cons_succ]
      have h1 := ih p' (by simpa using hp)
      have := List.cons.sizeOf_spec x xs
      omega

theorem minArity_le (rows : List (List Sample)) (r : List Sample) (hr : r ∈ rows) :
    minArity rows ≤ r.length := by
  induction rows with
  | nil => simp at hr
  | cons x xs ih =>
    rcases xs with _ | ⟨y, ys⟩
    · have hrx : r = x := by simpa using hr
      subst hrx
      exact Nat.le_refl _
    · rcases List.mem_cons.1 hr with rfl | hr'
      · exact Nat.min_le_left _ _
      · have h1 := ih hr'
        have h2 := Nat.min_le_right x.length (minArity (y :: ys))
        show min x.length (minArity (y :: ys)) ≤ r.length
        omega

theorem sizeOf_column_le :
    ∀ (batch : List Sample) (rows : List (List Sample)) (p : Nat),
      toRows batch = some rows → (∀ r ∈ rows, p < r.length) →
      sizeOf (column rows p) ≤ sizeOf batch := by
  intro batch
  induction batch with
  | nil =>
    intro rows p htr _
    have hrows : rows = [] := by
      simp only [toRows] at htr
      exact (Option.some_inj.1 htr).symm
    subst hrows
    simp [column]
  | cons s rest ih =>
    intro rows p htr hlt
    cases s with
    | tensor sh => simp [toRows] at htr
    | int i => simp [toRows] at htr
    | tuple l =>
      cases hr : toRows rest with
      | none =>
        simp only [toRows, hr] at htr
        exact absurd htr (by simp)
      | some rs =>
        simp only [toRows, hr] at htr
        have hrows : rows = l :: rs := (Option.some_inj.1 htr).symm
        subst hrows
        have h1 : sizeOf (l.getD p (Sample.int 0)) < sizeOf l :=
          sizeOf_getD_lt l p (hlt l (by simp))
        have h2 : sizeOf (column rs p) ≤ sizeOf rest :=
          ih rs p hr (fun r hrr => hlt r (by simp [hrr]))
        show sizeOf (l.getD p (Sample.int 0) :: column rs p) ≤
          sizeOf (Sample.tuple l :: rest)
        have e1 := List.cons.sizeOf_spec (l.getD p (Sample.int 0)) (column rs p)
        have e2 := List.cons.sizeOf_spec (Sample.tuple l) rest
        have e3 : sizeOf (Sample.tuple l) = 1 + sizeOf l := by
          simp
        omega

theorem sizeOf_column_lt (s : Sample) (rest : List Sample)
    (rows : List (List Sample)) (p : Nat)
    (htr : toRows (s :: rest) = some rows) (hlt : ∀ r ∈ rows, p < r.length) :
    sizeOf (column rows p) < sizeOf (s :: rest) := by
  cases s with
  | tensor sh => simp [toRows] at htr
  | int i => simp [toRows] at htr
  | tuple l =>
    cases hr : toRows rest with
    | none =>
      simp only [toRows, hr] at htr
      exact absurd htr (by simp)
    | some rs =>
      simp only [toRows, hr] at htr
      have hrows : rows = l :: rs := (Option.some_inj.1 htr).symm
      subst hrows
      have h1 : sizeOf (l.getD p (Sample.int 0)) < sizeOf l :=
        sizeOf_getD_lt l p (hlt l (by simp))
      have h2 : sizeOf (column rs p) ≤ sizeOf rest :=
        sizeOf_column_le rest rs p hr (fun r hrr => hlt r (by simp [hrr]))
      show sizeOf (l.getD p (Sample.int 0) :: column rs p) <
        sizeOf (Sample.tuple l :: rest)
      have e1 := List.cons.sizeOf_spec (l.getD p (Sample.int 0)) (column rs p)
      have e2 := List.cons.sizeOf_spec (Sample.tuple l) rest
      have e3 : sizeOf (Sample.tuple l) = 1 + sizeOf l := by
        simp
      omega

/-- `VideoCollate.__call__(batch)` with `self.batch_size = batch_size`.
`batch[0]` dispatches the kind; tensors are stacked and reshaped into
`(t, batch_size, *frame)`, ints become a `(t, batch_size)` long tensor,
tuples are transposed by `zip(*batch)` and collated recursively; shape
mismatches, non-divisible views, `% 0`, and empty batches are raised
errors, embedded as `none`. -/
def collate (batch_size : Nat) : List Sample → Option Batched
  | [] => none
  | s :: rest =>
    match s with
    | Sample.tensor sh =>
        if (s :: rest).all (isTensorOf sh) && ((s :: rest).length % batch_size == 0)
            && (batch_size != 0) then
          some (.tensor ((s :: rest).length / batch_size :: batch_size :: sh))
        else none
    | Sample.int _ =>
        if (s :: rest).all isInt && ((s :: rest).length % batch_size == 0)
            && (batch_size != 0) then
          some (.tensor [(s :: rest).length / batch_size, batch_size])
        else none
    | Sample.tuple l =>
        match htr : toRows (Sample.tuple l :: rest) with
        | none => none
        | some rows =>
            (seqOption ((List.range (minArity rows)).attach.map
              (fun p => collate batch_size (column rows p.1)))).map Batched.tuple
termination_by batch => sizeOf batch
decreasing_by
  have hp : p.1 < minArity rows := List.mem_range.1 p.2
  have hlt : ∀ r ∈ rows, p.1 < r.length :=
    fun r hr => Nat.lt_of_lt_of_le hp (minArity_le rows r hr)
  exact sizeOf_column_lt (Sample.tuple l) rest rows p.1 htr hlt

end VideoCollate

namespace VideoCollate

theorem toRows_map_tuple : ∀ rows : List (List Sample),
    toRows (rows.map Sample.tuple) = some rows := by
  intro rows
  induction rows with
  | nil => rfl
  | cons r rs ih =>
    show toRows (Sample.tuple r :: rs.map Sample.tuple) = some (r :: rs)
    simp only [toRows, ih]

theorem minArity_const : ∀ (rows : List (List Sample)) (k : Nat),
    rows ≠ [] → (∀ r ∈ rows, r.length = k) → minArity rows = k := by
  intro rows
  induction rows with
  | nil => intro k h _; exact absurd rfl h
  | cons r rs ih =>
    intro k _ hall
    rcases rs with _ | ⟨y, ys⟩
    · exact hall r (by simp)
    · show min r.length (minArity (y :: ys)) = k
      rw [hall r (by simp), ih k (by simp) (fun x hx => hall x (by simp [hx]))]
      simp

theorem seqOption_map_some (g : Nat → Option Batched) (c : Nat → Batched) :
    ∀ l : List Nat, (∀ p ∈ l, g p = some (c p)) →
      seqOption (l.map g) = some (l.map c) := by
  intro l
  induction l with
  | nil => intro _; rfl
  | cons x xs ih =>
    intro h
    rw [List.map_cons, List.map_cons, h x (by simp)]
    show (seqOption (xs.map g)).map (fun bs => c x :: bs) = some (c x :: xs.map c)
    rw [ih (fun p hp => h p (by simp [hp]))]
    rfl

theorem attach_map_g (l : List Nat) (g : Nat → Option Batched) :
    l.attach.map (fun p => g p.1) = l.map g :=
  List.attach_map_val l g

/-- One-step unfolding of the tuple branch on a transposable batch. -/
theorem collate_tuple_some (batch_size : Nat) (l : List Sample) (rest : List Sample)
    (rows : List (List Sample)) (h : toRows (Sample.tuple l :: rest) = some rows) :
    collate batch_size (Sample.tuple l :: rest) =
      (seqOption ((List.range (minArity rows)).attach.map
        (fun p => collate batch_size (column rows p.1)))).map Batched.tuple := by
  rw [collate]
  split
  · rename_i heq
    rw [h] at heq
    cases heq
  · rename_i rows' heq
    rw [h] at heq
    cases heq
    rfl

/-- The code's zip-based transpose agrees with the specification's
per-position groups on equal-arity tuple batches: the result is a
`k`-tuple whose `p`-th component is the collation of the `p`-th
components. -/
theorem collate_transposes (batch_size k : Nat) (rows : List (List Sample))
    (c : Nat → Batched) (hne : rows ≠ [])
    (harity : ∀ r ∈ rows, r.length = k)
    (hcomp : ∀ p, p < k → collate batch_size (column rows p) = some (c p)) :
    collate batch_size (rows.map Sample.tuple) =
      some (Batched.tuple ((List.range k).map c)) := by
  rcases rows with _ | ⟨r0, rows'⟩
  · exact absurd rfl hne
  · rw [show (r0 :: rows').map Sample.tuple = Sample.tuple r0 :: rows'.map Sample.tuple
      from rfl]
    rw [collate_tuple_some batch_size r0 (rows'.map Sample.tuple) (r0 :: rows')
      (toRows_map_tuple (r0 :: rows'))]
    rw [minArity_const (r0 :: rows') k (by simp) harity]
    have hattach := attach_map_g (List.range k)
      (fun p => collate batch_size (column (r0 :: rows') p))
    rw [hattach]
    rw [seqOption_map_some (fun p => collate batch_size (column (r0 :: rows') p)) c
      (List.range k) (fun p hp => hcomp p (List.mem_range.1 hp))]
    rfl

/-- **C9.** For a batch of ordered tuples of equal arity `k`, collation
returns a `k`-tuple whose `p`-th component is the collation of the
batch's `p`-th components, preserving arity and order; in particular 5
samples that are each a 2-tuple of an integer label and a tensor frame,
with `batch_size = 5`, collate to a 2-tuple of a `(1, 5)` label batch
and a `(1, 5, *frameShape)` frame batch. -/
theorem collate_preserves_tuples (batch_size k : Nat) (rows : List (List Sample))
    (c : Nat → Batched) (hne : rows ≠ [])
    (harity : ∀ r ∈ rows, r.length = k)
    (hcomp : ∀ p, p < k → collate batch_size (column rows p) = some (c p)) :
    collate batch_size (rows.map Sample.tuple) =
      some (Batched.tuple ((List.range k).map c)) ∧
    ((List.range k).map c).length = k ∧
    collate 5 (List.replicate 5 (Sample.tuple [Sample.int 0, Sample.tensor [10, 20, 3]])) =
      some (Batched.tuple [Batched.tensor [1, 5], Batched.tensor [1, 5, 10, 20, 3]]) := by
  refine ⟨collate_transposes batch_size k rows c hne harity hcomp, by simp, ?_⟩
  have hrep : (List.replicate 5 [Sample.int 0, Sample.tensor [10, 20, 3]]).map Sample.tuple
      = List.replicate 5 (Sample.tuple [Sample.int 0, Sample.tensor [10, 20, 3]]) := by
    simp [List.map_replicate]
  rw [← hrep]
  have hmain := collate_transposes 5 2
    (List.replicate 5 [Sample.int 0, Sample.tensor [10, 20, 3]])
    (fun p => if p = 0 then Batched.tensor [1, 5] else Batched.tensor [1, 5, 10, 20, 3])
    (by simp)
    (by
      intro r hr
      have hrr := List.eq_of_mem_replicate hr
      subst hrr
      rfl)
    (by
      intro p hp
      rcases p with _ | p'
      · show collate 5 [Sample.int 0, Sample.int 0, Sample.int 0, Sample.int 0,
          Sample.int 0] = some (Batched.tensor [1, 5])
        simp [collate, isInt]
      · rcases p' with _ | p''
        · show collate 5 [Sample.tensor [10, 20, 3], Sample.tensor [10, 20, 3],
            Sample.tensor [10, 20, 3], Sample.tensor [10, 20, 3], Sample.tensor [10, 20, 3]] =
            some (Batched.tensor [1, 5, 10, 20, 3])
          simp [collate, isTensorOf]
        · omega)
  rw [hmain]
  rfl

/-- Witness for C9: two samples, each a 2-tuple of an int label and a
`[7]`-shaped tensor, with `batch_size = 2`. -/
theorem collate_preserves_tuples_witness :
    collate 2 ([[Sample.int 0, Sample.tensor [7]],
        [Sample.int 1, Sample.tensor [7]]].map Sample.tuple) =
      some (Batched.tuple ((List.range 2).map
        (fun p => if p = 0 then Batched.tensor [1, 2] else Batched.tensor [1, 2, 7]))) := by
  exact (collate_preserves_tuples 2 2
    [[Sample.int 0, Sample.tensor [7]], [Sample.int 1, Sample.tensor [7]]]
    (fun p => if p = 0 then Batched.tensor [1, 2] else Batched.tensor [1, 2, 7])
    (by simp)
    (by
      intro r hr
      rcases List.mem_cons.1 hr with rfl | hr'
      · rfl
      · have : r = [Sample.int 1, Sample.tensor [7]] := by simpa using hr'
        subst this
        rfl)
    (by
      intro p hp
      rcases p with _ | p'
      · show collate 2 [Sample.int 0, Sample.int 1] = some (Batched.tensor [1, 2])
        simp [collate, isInt]
      · rcases p' with _ | p''
        · show collate 2 [Sample.tensor [7], Sample.tensor [7]] =
            some (Batched.tensor [1, 2, 7])
          simp [collate, isTensorOf]
        · omega)).1

end VideoCollate
